import Mathlib

/-!
Shallow embedding of the `persistence` crate's core: the combinatorics
generator (`src/combinatorics.rs`), the point-cloud / Vietoris-Rips
construction (`src/point_cloud.rs`), the simplicial-complex data structure
(`src/simplicial_complex.rs`) and the boundary-matrix-reduction persistence
engine (`src/homology.rs`).

Modelling conventions:
* `usize` values are modelled as `ℕ`; the crate's `f64` filtration levels and
  distances are modelled by a generic linearly ordered type `α` (the code only
  ever compares them via `OrderedFloat`), instantiated with `ℚ` for executable
  runs and with `ℝ` for the scenario statements about Euclidean distances.
* Rust `HashSet<usize>` becomes `Finset ℕ`; the `HashMap<Simplex, usize>`
  index map becomes a function `Simplex → Option ℕ` built by a left fold with
  later-insert-wins semantics, exactly like `collect()` on a Rust `HashMap`.
* Fallible constructors return `Except`; a Rust `panic!`/`unwrap` failure is
  modelled by `Option` (`none` = panic).
* The unbounded `while` loops (the odometer advance in `Combinations::next`
  is bounded by construction, the echelon-reduction loop in
  `remove_pivot_rows` strictly decreases its pivot) are modelled with an
  explicit fuel argument that is provably sufficient.
-/

namespace Persist

/-- Error type of `src/combinatorics.rs` (`CombinatoricsError`). -/
inductive CombinatoricsError where
  | InvalidSize (size len : ℕ)
  | TooLarge (n : ℕ)
deriving DecidableEq, Repr

/-- The binomial-coefficient computation performed by `Combinations::new`:
`(1..=size).fold(1, |acc, i| acc * (len - size + i) / i)` (natural-number
division, exactly as in the source). -/
def binomFold (len size : ℕ) : ℕ :=
  (List.range' 1 size).foldl (fun acc i => acc * (len - size + i) / i) 1

/-- Iterator state of `Combinations` (`src/combinatorics.rs`).  The element
type is fixed to `ℕ` because every use in the crate instantiates `T` with
`usize`. -/
structure Combinations where
  elements : List ℕ
  indices : List ℕ
  isFirst : Bool
  size : ℕ
deriving DecidableEq, Repr

/-- `Combinations::new(elements, size)`: guard checks, then the initial
odometer state `indices = 0..size`. -/
def Combinations.new (elements : List ℕ) (size : ℕ) :
    Except CombinatoricsError Combinations :=
  let len := elements.length
  if size > len then .error (.InvalidSize size len)
  else if binomFold len size > 10000000 then .error (.TooLarge (binomFold len size))
  else .ok ⟨elements, List.range size, true, size⟩

/-- The decreasing `while i > 0` loop inside `Combinations::next`: try
position `p` (the argument is `p + 1`, i.e. Rust's `i` before the decrement);
if `indices[p]` is at its maximal allowed value `p + len - size`, move left,
otherwise increment it and reset every position to its right to the minimal
increasing run. -/
def advanceAux (len size : ℕ) (ix : List ℕ) : ℕ → Option (List ℕ)
  | 0 => none
  | p + 1 =>
    if ix.getD p 0 = p + len - size then advanceAux len size ix p
    else some (ix.take p ++ (List.range (size - p)).map (fun j => ix.getD p 0 + 1 + j))

/-- `Combinations::next`: first call yields the initial indices; later calls
advance the odometer, yielding `None` when exhausted.  Yielded combinations
are the indices mapped through `elements`. -/
def Combinations.next (c : Combinations) : Option (List ℕ × Combinations) :=
  if c.isFirst then
    some (c.indices.map (fun i => c.elements.getD i 0), { c with isFirst := false })
  else
    match advanceAux c.elements.length c.size c.indices c.size with
    | none => none
    | some ix => some (ix.map (fun i => c.elements.getD i 0), { c with indices := ix })

/-- Driving the iterator to exhaustion (Rust's `iter.collect()`), with fuel. -/
def collectAux : ℕ → Combinations → List (List ℕ)
  | 0, _ => []
  | fuel + 1, c =>
    match c.next with
    | none => []
    | some (out, c') => out :: collectAux fuel c'

/-- `generate_combinations(elements, size)`: construct the iterator and
collect it.  The fuel `(len+1)^size + 1` strictly exceeds the number of items
the odometer can ever yield (proved below). -/
def generateCombinations (elements : List ℕ) (size : ℕ) :
    Except CombinatoricsError (List (List ℕ)) :=
  (Combinations.new elements size).map
    (fun c => collectAux ((elements.length + 1) ^ size + 1) c)

/-- The `for size in 1..=max_size` loop of `generate_subsets`, which `break`s
at the first size whose `generate_combinations` call fails (the `TooLarge`
guard).  The first argument counts the remaining loop iterations (structural
recursion, so that the definition evaluates by kernel reduction). -/
def subsetsGo (elements : List ℕ) : ℕ → ℕ → List (List ℕ)
  | 0, _ => []
  | remaining + 1, size =>
    match generateCombinations elements size with
    | .ok cs => cs ++ subsetsGo elements remaining (size + 1)
    | .error _ => []

/-- `generate_subsets(elements, max_size)`: the empty subset, then all
combinations of sizes `1..=min max_size len` until the guard breaks the
loop. -/
def generateSubsets (elements : List ℕ) (maxSize : ℕ) : List (List ℕ) :=
  [] :: subsetsGo elements (min maxSize elements.length) 1

/-- Error type of `src/simplicial_complex.rs` (`SimplicialComplexError`). -/
inductive SimplicialComplexError where
  | LengthMismatch (nSimplices nLevels : ℕ)
  | InvalidSimplex
deriving DecidableEq, Repr

/-- A simplex, `src/simplicial_complex.rs::Simplex`: a list of vertex
indices. -/
structure Simplex where
  vertices : List ℕ
deriving DecidableEq, Repr

/-- `Simplex::new`: sorts the vertices ascending (`sort_unstable`; on `ℕ`
values stability is irrelevant, so a stable insertion sort is the same
function). -/
def Simplex.new (vertices : List ℕ) : Simplex :=
  ⟨List.insertionSort (· ≤ ·) vertices⟩

/-- `Simplex::dim`: `vertices.len() - 1`. -/
def Simplex.dim (s : Simplex) : ℕ := s.vertices.length - 1

/-- `Simplex::validate` as a predicate: at least one vertex and no duplicate
vertices. -/
def Simplex.valid (s : Simplex) : Bool :=
  !s.vertices.isEmpty && s.vertices.Nodup

/-- The index map built at the end of `SimplicialComplex::new`:
`sorted_simplices.iter().enumerate().map(|(i, s)| (s.clone(), i)).collect()`.
A Rust `HashMap` built by `collect` keeps the *last* value inserted for a
repeated key. -/
def buildIndexes (l : List Simplex) : Simplex → Option ℕ :=
  l.enum.foldl (fun m p => fun x => if x = p.2 then some p.1 else m x) (fun _ => none)

/-- `src/simplicial_complex.rs::SimplicialComplex`, with filtration levels of
a generic linearly ordered type `α` in place of `f64`. -/
structure SimplicialComplex (α : Type) where
  simplices : List Simplex
  levels : List α
  indexes : Simplex → Option ℕ

/-- The comparator passed to `sort_by` in `SimplicialComplex::new`
(`a.1.partial_cmp(&b.1)`): compare pairs by filtration level. -/
def levelLe {α : Type} [LinearOrder α] (a b : Simplex × α) : Prop := a.2 ≤ b.2

instance {α : Type} [LinearOrder α] : DecidableRel (levelLe (α := α)) :=
  fun a b => inferInstanceAs (Decidable (a.2 ≤ b.2))

/-- `SimplicialComplex::new(simplices, levels)`: length check, per-simplex
validation, stable sort of the pairs by level, index map over the sorted
order.  Rust's `sort_by` is a stable sort; as a function on lists a stable
sort is uniquely determined by the comparator, and `List.insertionSort`
with the level-`≤` comparator is that function. -/
def mkComplex {α : Type} [LinearOrder α] (simplices : List Simplex) (levels : List α) :
    Except SimplicialComplexError (SimplicialComplex α) :=
  if simplices.length ≠ levels.length then
    .error (.LengthMismatch simplices.length levels.length)
  else if ¬ (simplices.all Simplex.valid) then .error .InvalidSimplex
  else
    let paired := simplices.zip levels
    let sorted := List.insertionSort levelLe paired
    .ok ⟨sorted.map Prod.fst, sorted.map Prod.snd, buildIndexes (sorted.map Prod.fst)⟩

/-- `SimplicialComplex::index_of`. -/
def SimplicialComplex.indexOf {α : Type} (c : SimplicialComplex α) (s : Simplex) :
    Option ℕ :=
  c.indexes s

/-- The `ChainComplex::boundary` implementation of
`src/simplicial_complex.rs` (lines 143-160): for each vertex of the simplex
remove it, look the face up in the index map, and insert the index when the
lookup succeeds — a missing face is silently skipped by the `if let`. -/
def scBoundary {α : Type} (c : SimplicialComplex α) (index : ℕ) : Finset ℕ :=
  let s := c.simplices.getD index ⟨[]⟩
  (s.vertices.filterMap (fun v =>
    let faceVertices := s.vertices.filter (fun x => x ≠ v)
    if faceVertices.isEmpty then none
    else c.indexOf (Simplex.new faceVertices))).toFinset

/-- Error type of `src/point_cloud.rs` (`PointCloudError`); string payloads
are dropped. -/
inductive PointCloudError where
  | EmptyCloud
  | DimensionMismatch (expected got : ℕ)
  | InvalidDimension
deriving DecidableEq, Repr

/-- The `ndarray::Array2` input of `PointCloud::new`: an explicit shape plus
an entry function. -/
structure Matrixf (α : Type) where
  nrows : ℕ
  ncols : ℕ
  entry : ℕ → ℕ → α

/-- `src/point_cloud.rs::PointCloud`. -/
structure PointCloud (α : Type) where
  points : Matrixf α

/-- `PointCloud::new`: fails with `EmptyCloud` iff `points.is_empty()`,
i.e. iff the matrix has zero elements (`nrows * ncols = 0`). -/
def PointCloud.new {α : Type} (points : Matrixf α) :
    Except PointCloudError (PointCloud α) :=
  if points.nrows * points.ncols = 0 then .error .EmptyCloud
  else .ok ⟨points⟩

/-- The diameter computation inside the `vietoris_rips_complex` loop: `0` for
a singleton, otherwise the maximum of `dist_matrix[[p[0], p[1]]]` over the
2-element subsets of the vertex subset (the `.max().unwrap()` of a provably
non-empty iterator is modelled as `max?.getD 0`). -/
def subsetDiameter {α : Type} [LinearOrder α] [Zero α]
    (d : ℕ → ℕ → α) (subset : List ℕ) : α :=
  if subset.length = 1 then 0
  else
    ((((generateSubsets subset 2).filter (fun p => p.length = 2)).map
      (fun p => d (p.getD 0 0) (p.getD 1 0))).max?).getD 0

/-- `PointCloud::vietoris_rips_complex(max_dimension, threshold)`, abstracted
over the pairwise-distance function `d` (the code computes `dist_matrix`
once and only ever reads entries from it). -/
def vietorisRips {α : Type} [LinearOrder α] [Zero α] (n : ℕ) (d : ℕ → ℕ → α)
    (maxDimension : ℕ) (threshold : α) :
    Except PointCloudError (SimplicialComplex α) :=
  if maxDimension ≥ n then .error .InvalidDimension
  else
    let subsets := generateSubsets (List.range n) (maxDimension + 1)
    let accepted := subsets.filterMap (fun subset =>
      if subset.isEmpty then none
      else
        let maxDist := subsetDiameter d subset
        if maxDist ≤ threshold then some (Simplex.new subset, maxDist) else none)
    (mkComplex (accepted.map Prod.fst) (accepted.map Prod.snd)).mapError
      (fun _ => .InvalidDimension)

/-- Euclidean distance between two coordinate lists
(`src/point_cloud.rs::euclidean_distance`). -/
noncomputable def euclideanDistance (p q : List ℝ) : ℝ :=
  Real.sqrt (((p.zip q).map (fun ab => (ab.1 - ab.2) ^ 2)).sum)

/-- `PointCloud::pairwise_distances` as a function of the row indices: the
Rust code fills a symmetric matrix with exactly these values (zero diagonal
included, since the distance of a point to itself is `√0`). -/
noncomputable def pairwiseDist (points : List (List ℝ)) : ℕ → ℕ → ℝ :=
  fun i j => euclideanDistance (points.getD i []) (points.getD j [])

/-! ## The persistence engine of `src/homology.rs` -/

/-- A persistence interval (`src/homology.rs::PersistenceInterval`); the
`f64::INFINITY` death of an immortal feature is modelled by `⊤` in
`WithTop α`. -/
structure PInterval (α : Type) where
  birth : α
  death : WithTop α
deriving DecidableEq, Repr

/-- The chain-complex contract consumed by the reduction algorithm
(`trait ChainComplex`): a chain count, and per-index dimension, filtration
level and boundary index set. -/
structure ChainCplx (α : Type) where
  n : ℕ
  dim : ℕ → ℕ
  level : ℕ → α
  bdry : ℕ → Finset ℕ

/-- The mutable per-simplex state of the reduction pass (the `is_marked` and
`co_bounds` fields of `Entry`; `chain` and `filtration_level` never change
and stay in the complex). -/
structure RState where
  marked : Finset ℕ
  coB : ℕ → Finset ℕ

/-- The echelon-form `while` loop of `remove_pivot_rows`: take the maximal
element `b` of the working boundary; stop if row `b` is unclaimed, otherwise
XOR (symmetric difference) the stored pivot column of `b` into the boundary.
Fuel-indexed; any fuel exceeding every member of the working set suffices. -/
def reduceB (coB : ℕ → Finset ℕ) : ℕ → Finset ℕ → Finset ℕ
  | 0, B => B
  | fuel + 1, B =>
    if B = ∅ then B
    else
      let b := B.max.unbot' 0
      if coB b = ∅ then B else reduceB coB fuel (symmDiff B (coB b))

/-- `ChainComplex::remove_pivot_rows(chain_ix, table)`: the boundary of the
chain, restricted to marked rows, then reduced toward echelon form. -/
def removePivotRows {α : Type} (C : ChainCplx α) (st : RState) (i : ℕ) : Finset ℕ :=
  reduceB st.coB C.n ((C.bdry i).filter (fun bx => bx ∈ st.marked))

/-- One iteration of the main `for sx in 0..table.len()` loop of
`compute_intervals`, acting on the reduction state and the dimension-indexed
interval buckets. -/
def stepMain {α : Type} (C : ChainCplx α)
    (acc : RState × List (List (PInterval α))) (i : ℕ) :
    RState × List (List (PInterval α)) :=
  let B := removePivotRows C acc.1 i
  if B = ∅ then ({ acc.1 with marked := insert i acc.1.marked }, acc.2)
  else
    let b := B.max.unbot' 0
    let dim := C.dim b
    ({ acc.1 with coB := Function.update acc.1.coB b B },
      acc.2.set dim (acc.2.getD dim [] ++ [⟨C.level b, (C.level i : WithTop α)⟩]))

/-- The main loop of `compute_intervals`, run over all chain indices. -/
def mainFold {α : Type} (C : ChainCplx α) (maxDim : ℕ) :
    RState × List (List (PInterval α)) :=
  (List.range C.n).foldl (stepMain C) (⟨∅, fun _ => ∅⟩, List.replicate (maxDim + 1) [])

/-- The final sweep of `compute_intervals`: every entry still marked with an
unclaimed pivot column emits an interval dying at `+∞`. -/
def finalPass {α : Type} (C : ChainCplx α) (st : RState)
    (ivs : List (List (PInterval α))) : List (List (PInterval α)) :=
  (List.range C.n).foldl (fun acc j =>
    if j ∈ st.marked ∧ st.coB j = ∅ then
      acc.set (C.dim j) (acc.getD (C.dim j) [] ++ [⟨C.level j, ⊤⟩])
    else acc) ivs

/-- `ChainComplex::compute_intervals`.  The source computes
`max_dim = chains().iter().map(dim).max().unwrap()`, which *panics* on an
empty complex; the panic is modelled by `none`. -/
def computeIntervals {α : Type} (C : ChainCplx α) :
    Option (List (List (PInterval α))) :=
  match ((List.range C.n).map C.dim).max? with
  | none => none
  | some maxDim =>
    let r := mainFold C maxDim
    some (finalPass C r.1 r.2)

/-- The `ChainComplex` instance of `SimplicialComplex`: chain count, simplex
dimension, filtration level and the face-lookup boundary operator. -/
def chainOf {α : Type} [Zero α] (c : SimplicialComplex α) : ChainCplx α where
  n := c.simplices.length
  dim := fun i => (c.simplices.getD i ⟨[]⟩).dim
  level := fun i => c.levels.getD i 0
  bdry := scBoundary c

/-! ## Concrete scenarios

Scenario A (triangle): points `(0,0), (1,0), (1,2)`, pairwise distances
`1, 2, √5`.  Scenario B (unit square): points `(0,0), (1,0), (1,1), (0,1)`,
pairwise distances `1` (sides) and `√2` (diagonals).  Because every squared
distance is a natural number and every construct of the pipeline only
*compares* distances, the pipeline is run over `ℕ` (squared distances,
threshold `10² = 100`) and transported to the real pipeline along the
strictly monotone map `√· : ℕ → ℝ`. -/

/-- Squared pairwise distances of the unit-square point cloud
`[[0,0],[1,0],[1,1],[0,1]]`. -/
def dSquareN : ℕ → ℕ → ℕ
  | 0, 1 => 1 | 1, 0 => 1
  | 0, 2 => 2 | 2, 0 => 2
  | 0, 3 => 1 | 3, 0 => 1
  | 1, 2 => 1 | 2, 1 => 1
  | 1, 3 => 2 | 3, 1 => 2
  | 2, 3 => 1 | 3, 2 => 1
  | _, _ => 0

/-- Squared pairwise distances of the triangle point cloud
`[[0,0],[1,0],[1,2]]`. -/
def dTriangleN : ℕ → ℕ → ℕ
  | 0, 1 => 1 | 1, 0 => 1
  | 1, 2 => 4 | 2, 1 => 4
  | 0, 2 => 5 | 2, 0 => 5
  | _, _ => 0

/-- The simplices of the square's Vietoris-Rips complex, in sorted filtration
order. -/
def sqSimplices : List Simplex :=
  [⟨[0]⟩, ⟨[1]⟩, ⟨[2]⟩, ⟨[3]⟩, ⟨[0, 1]⟩, ⟨[0, 3]⟩, ⟨[1, 2]⟩, ⟨[2, 3]⟩, ⟨[0, 2]⟩,
   ⟨[1, 3]⟩, ⟨[0, 1, 2]⟩, ⟨[0, 1, 3]⟩, ⟨[0, 2, 3]⟩, ⟨[1, 2, 3]⟩]

/-- The square's Vietoris-Rips complex over squared-distance (`ℕ`) levels. -/
def sqComplexN : SimplicialComplex ℕ :=
  ⟨sqSimplices, [0, 0, 0, 0, 1, 1, 1, 1, 2, 2, 2, 2, 2, 2], buildIndexes sqSimplices⟩

/-- The simplices of the triangle's Vietoris-Rips complex, in sorted
filtration order. -/
def triSimplices : List Simplex :=
  [⟨[0]⟩, ⟨[1]⟩, ⟨[2]⟩, ⟨[0, 1]⟩, ⟨[1, 2]⟩, ⟨[0, 2]⟩, ⟨[0, 1, 2]⟩]

/-- The triangle's Vietoris-Rips complex over squared-distance (`ℕ`)
levels. -/
def triComplexN : SimplicialComplex ℕ :=
  ⟨triSimplices, [0, 0, 0, 1, 4, 5, 5], buildIndexes triSimplices⟩

/-- Reduction state of the square complex after processing indices `0..=6`. -/
def sqMidState : RState × List (List (PInterval ℕ)) :=
  (⟨{3, 2, 1, 0},
    Function.update (Function.update (Function.update (fun _ => ∅) 1 {1, 0}) 3 {3, 0}) 2
      {2, 1}⟩,
   [[⟨0, WithTop.some (1 : ℕ)⟩, ⟨0, WithTop.some (1 : ℕ)⟩, ⟨0, WithTop.some (1 : ℕ)⟩],
    [], []])

/-- Reduction state of the square complex after the full main pass. -/
def sqFinalState : RState × List (List (PInterval ℕ)) :=
  (⟨{13, 9, 8, 7, 3, 2, 1, 0},
    Function.update (Function.update (Function.update (Function.update (Function.update
      (Function.update (fun _ => ∅) 1 {1, 0}) 3 {3, 0}) 2 {2, 1}) 8 {8}) 9 {9}) 7 {7}⟩,
   [[⟨0, WithTop.some (1 : ℕ)⟩, ⟨0, WithTop.some (1 : ℕ)⟩, ⟨0, WithTop.some (1 : ℕ)⟩],
    [⟨2, WithTop.some (2 : ℕ)⟩, ⟨2, WithTop.some (2 : ℕ)⟩, ⟨1, WithTop.some (2 : ℕ)⟩], []])

/-- The persistence intervals of the square complex over squared levels. -/
def sqBucketsN : List (List (PInterval ℕ)) :=
  [[⟨0, WithTop.some (1 : ℕ)⟩, ⟨0, WithTop.some (1 : ℕ)⟩, ⟨0, WithTop.some (1 : ℕ)⟩, ⟨0, ⊤⟩],
   [⟨2, WithTop.some (2 : ℕ)⟩, ⟨2, WithTop.some (2 : ℕ)⟩, ⟨1, WithTop.some (2 : ℕ)⟩],
   [⟨2, ⊤⟩]]

set_option maxRecDepth 262144 in
theorem sq_vietoris_N :
    vietorisRips 4 dSquareN 2 100 = .ok sqComplexN := rfl

set_option maxRecDepth 262144 in
theorem tri_vietoris_N :
    vietorisRips 3 dTriangleN 2 100 = .ok triComplexN := rfl

set_option maxRecDepth 262144 in
theorem sq_fold_first_half :
    List.foldl (stepMain (chainOf sqComplexN))
      (⟨∅, fun _ => ∅⟩, List.replicate 3 []) [0, 1, 2, 3, 4, 5, 6] = sqMidState := rfl

set_option maxRecDepth 262144 in
theorem sq_fold_second_half :
    List.foldl (stepMain (chainOf sqComplexN)) sqMidState
      [7, 8, 9, 10, 11, 12, 13] = sqFinalState := rfl

set_option maxRecDepth 262144 in
theorem sq_finalPass :
    finalPass (chainOf sqComplexN) sqFinalState.1 sqFinalState.2 = sqBucketsN := rfl

theorem sq_mainFold : mainFold (chainOf sqComplexN) 2 = sqFinalState := by
  show List.foldl _ _ (List.range (chainOf sqComplexN).n) = _
  rw [show List.range (chainOf sqComplexN).n
      = [0, 1, 2, 3, 4, 5, 6] ++ [7, 8, 9, 10, 11, 12, 13] from rfl,
    List.foldl_append, sq_fold_first_half, sq_fold_second_half]

theorem sq_intervals_N : computeIntervals (chainOf sqComplexN) = some sqBucketsN := by
  have h : computeIntervals (chainOf sqComplexN)
      = some (finalPass (chainOf sqComplexN) (mainFold (chainOf sqComplexN) 2).1
          (mainFold (chainOf sqComplexN) 2).2) := rfl
  rw [h, sq_mainFold, sq_finalPass]

/-! ## The binomial fold computes the binomial coefficient -/

theorem binomFoldAux (m : ℕ) :
    ∀ k, (List.range' 1 k).foldl (fun acc i => acc * (m + i) / i) 1
      = Nat.choose (m + k) k := by
  intro k
  induction k with
  | zero => simp
  | succ k ih =>
    have hr : List.range' 1 (k + 1) = List.range' 1 k ++ [1 + k] := by
      simpa using @List.range'_concat 1 1 k
    rw [hr, List.foldl_append, ih, List.foldl_cons, List.foldl_nil, Nat.add_comm 1 k]
    have hid := Nat.succ_mul_choose_eq (m + k) k
    have hmul : Nat.choose (m + k) k * (m + (k + 1))
        = Nat.choose (m + k + 1) (k + 1) * (k + 1) := by
      calc Nat.choose (m + k) k * (m + (k + 1))
          = (m + k + 1) * Nat.choose (m + k) k := by ring
        _ = Nat.choose (m + k + 1) (k + 1) * (k + 1) := by
            simpa [Nat.succ_eq_add_one] using hid
    have hdv : Nat.choose (m + k + 1) (k + 1) * (k + 1) / (k + 1)
        = Nat.choose (m + k + 1) (k + 1) :=
      Nat.mul_div_cancel _ (Nat.succ_pos k)
    rw [hmul, hdv]
    rfl

/-- For `size ≤ len` the fold in `Combinations::new` computes exactly
`C(len, size)` (the stepwise natural-number divisions are exact). -/
theorem binomFold_eq_choose {len size : ℕ} (h : size ≤ len) :
    binomFold len size = Nat.choose len size := by
  unfold binomFold
  rw [binomFoldAux (len - size) size]
  congr 1
  omega

/-! ## Claim theorems: error handling -/

/-- C7: `Combinations::new(elements, size)` fails with `InvalidSize` whenever
`size` exceeds the number of elements, and — before any combination can be
produced, since construction of the iterator itself fails — with
`TooLarge` whenever the binomial coefficient `C(len, size)` exceeds
10,000,000. -/
theorem c7_combination_guards (elements : List ℕ) (size : ℕ) :
    (size > elements.length →
      Combinations.new elements size = .error (.InvalidSize size elements.length))
    ∧ (size ≤ elements.length → Nat.choose elements.length size > 10000000 →
      Combinations.new elements size
        = .error (.TooLarge (Nat.choose elements.length size))) := by
  constructor
  · intro h
    unfold Combinations.new
    rw [if_pos h]
  · intro hle hbig
    unfold Combinations.new
    rw [if_neg (by omega), binomFold_eq_choose hle, if_pos hbig]

/-- Witness for C7 at the claim's concrete instance: requesting combinations
of size 10 from 100 elements fails with the size-guard (`TooLarge`) error. -/
theorem c7_combination_guards_witness :
    Combinations.new (List.range 100) 10
      = .error (.TooLarge (Nat.choose 100 10)) := by
  have h := (c7_combination_guards (List.range 100) 10).2
  simp only [List.length_range] at h
  exact h (by norm_num) (by rw [← binomFold_eq_choose (by norm_num)]; decide)

/-- C5: the persistence computation on an empty complex (no simplices) does
not return an empty per-dimension result — it fails: the source computes
`chains().iter().map(dim).max().unwrap()`, and `max()` of an empty iterator
is `None`, so the `unwrap` panics (modelled by `none`). -/
theorem c5_empty_complex_panics {α : Type} (dim : ℕ → ℕ) (level : ℕ → α)
    (bdry : ℕ → Finset ℕ) :
    computeIntervals (⟨0, dim, level, bdry⟩ : ChainCplx α) = none := rfl

/-- C6: `SimplicialComplex::boundary` silently drops a codimension-1 face
that is absent from the simplex→index map instead of aborting with a
diagnostic.  `SimplicialComplex::new` happily builds the closure-violating
complex `[{0,1}]`, and `boundary(0)` returns the empty set — both faces
`{0}` and `{1}` are missing from the map and are skipped by the
`if let Some(face_index)`. -/
theorem c6_missing_face_silently_dropped :
    (mkComplex [⟨[0, 1]⟩] [(0 : ℚ)]).toOption.map (fun c => scBoundary c 0)
      = some ∅ := by decide

/-- C10: `PointCloud::new` fails exactly when the matrix has zero elements
(`ndarray`'s `is_empty()` is `len() == 0`, i.e. `nrows * ncols = 0`): it
returns `EmptyCloud` both for zero rows and for `n ≥ 1` rows with zero
columns, and it never returns `DimensionMismatch`. -/
theorem c10_pointcloud_new {α : Type} (m : Matrixf α) :
    ((∃ e, PointCloud.new m = .error e) ↔ m.nrows = 0 ∨ m.ncols = 0)
    ∧ (PointCloud.new m = .error .EmptyCloud ↔ m.nrows = 0 ∨ m.ncols = 0)
    ∧ (∀ expected got,
        PointCloud.new m ≠ .error (.DimensionMismatch expected got)) := by
  unfold PointCloud.new
  by_cases h : m.nrows * m.ncols = 0
  · rw [if_pos h]
    refine ⟨⟨fun _ => by simpa [Nat.mul_eq_zero] using h, fun _ => ⟨_, rfl⟩⟩,
      ⟨fun _ => by simpa [Nat.mul_eq_zero] using h, fun _ => rfl⟩, ?_⟩
    intro expected got hc
    exact PointCloudError.noConfusion (Except.error.inj hc)
  · rw [if_neg h]
    rw [Nat.mul_eq_zero] at h
    push_neg at h
    refine ⟨⟨fun ⟨e, he⟩ => absurd he (by simp), fun hc => absurd hc (by tauto)⟩,
      ⟨fun he => absurd he (by simp), fun hc => absurd hc (by tauto)⟩, ?_⟩
    intro expected got hc
    exact Except.noConfusion hc

/-- Witness for C10 at a 3×0 matrix: construction fails with `EmptyCloud`
(and in particular not with `DimensionMismatch`). -/
theorem c10_pointcloud_new_witness :
    PointCloud.new (⟨3, 0, fun _ _ => (0 : ℚ)⟩ : Matrixf ℚ) = .error .EmptyCloud
    ∧ PointCloud.new (⟨3, 0, fun _ _ => (0 : ℚ)⟩ : Matrixf ℚ)
        ≠ .error (.DimensionMismatch 2 2) :=
  ⟨(c10_pointcloud_new _).2.1.mpr (Or.inr rfl), (c10_pointcloud_new _).2.2 2 2⟩

/-! ## Transport along a strictly monotone change of the level type

Every construct of the pipeline only compares levels, so applying a strictly
monotone, zero-preserving map to all distances commutes with the whole
construction.  This is used to transfer the executable `ℕ`-level (squared
distance) runs to the real Euclidean distances via `√· : ℕ → ℝ`. -/

/-- Apply `f` to every filtration level of a complex. -/
def mapSC {α β : Type} (f : α → β) (c : SimplicialComplex α) : SimplicialComplex β :=
  ⟨c.simplices, c.levels.map f, c.indexes⟩

/-- Apply `f` to the birth and death of an interval. -/
def mapPI {α β : Type} (f : α → β) (iv : PInterval α) : PInterval β :=
  ⟨f iv.birth, iv.death.map f⟩

theorem foldl_max_map {α β : Type} [LinearOrder α] [LinearOrder β] (f : α → β)
    (hf : Monotone f) : ∀ (l : List α) (a : α),
    (l.map f).foldl max (f a) = f (l.foldl max a) := by
  intro l
  induction l with
  | nil => intro a; rfl
  | cons b bs ih => intro a; simp only [List.map_cons, List.foldl_cons, ← hf.map_max, ih]

theorem max?_map_mono {α β : Type} [LinearOrder α] [LinearOrder β] (f : α → β)
    (hf : Monotone f) (l : List α) : (l.map f).max? = l.max?.map f := by
  cases l with
  | nil => rfl
  | cons a l => simp only [List.map_cons, List.max?_cons', foldl_max_map f hf, Option.map_some']

theorem orderedInsert_map {α β : Type} (r : α → α → Prop) (t : β → β → Prop)
    [DecidableRel r] [DecidableRel t] (g : α → β)
    (hg : ∀ a b, t (g a) (g b) ↔ r a b) (a : α) :
    ∀ l : List α, List.orderedInsert t (g a) (l.map g) = (List.orderedInsert r a l).map g := by
  intro l
  induction l with
  | nil => rfl
  | cons b bs ih =>
    simp only [List.map_cons, List.orderedInsert]
    by_cases h : r a b
    · rw [if_pos h, if_pos ((hg a b).mpr h)]
      rfl
    · rw [if_neg h, if_neg (fun hc => h ((hg a b).mp hc)), ih]
      rfl

theorem insertionSort_map {α β : Type} (r : α → α → Prop) (t : β → β → Prop)
    [DecidableRel r] [DecidableRel t] (g : α → β)
    (hg : ∀ a b, t (g a) (g b) ↔ r a b) :
    ∀ l : List α, List.insertionSort t (l.map g) = (List.insertionSort r l).map g := by
  intro l
  induction l with
  | nil => rfl
  | cons a l ih =>
    simp only [List.map_cons, List.insertionSort, ih, orderedInsert_map r t g hg]

/-- `SimplicialComplex::new` commutes with a strictly monotone relabelling of
the filtration levels. -/
theorem mkComplex_map {α β : Type} [LinearOrder α] [LinearOrder β] (f : α → β)
    (hf : StrictMono f) (ss : List Simplex) (ls : List α) :
    mkComplex ss (ls.map f) = (mkComplex ss ls).map (mapSC f) := by
  unfold mkComplex
  simp only [List.length_map]
  by_cases hlen : ss.length ≠ ls.length
  · rw [if_pos hlen, if_pos hlen]
    rfl
  · rw [if_neg hlen, if_neg hlen]
    by_cases hval : ¬ ss.all Simplex.valid
    · rw [if_pos hval, if_pos hval]
      rfl
    · rw [if_neg hval, if_neg hval]
      have hzip : ss.zip (ls.map f) = (ss.zip ls).map (Prod.map id f) :=
        List.zip_map_right f ss ls
      have hsort : List.insertionSort levelLe ((ss.zip ls).map (Prod.map id f))
          = (List.insertionSort levelLe (ss.zip ls)).map (Prod.map id f) := by
        refine insertionSort_map levelLe levelLe (Prod.map id f) ?_ _
        intro a b
        exact hf.le_iff_le
      rw [hzip, hsort, List.map_map, List.map_map]
      have hfst : (Prod.fst ∘ Prod.map id f) = (Prod.fst : Simplex × α → Simplex) := rfl
      have hsnd : (Prod.snd ∘ Prod.map (@id Simplex) f) = f ∘ Prod.snd := rfl
      rw [hfst, hsnd, ← List.map_map]
      rfl

/-- The diameter computation commutes with a monotone zero-preserving
relabelling of the distance matrix. -/
theorem subsetDiameter_map {α β : Type} [LinearOrder α] [Zero α] [LinearOrder β] [Zero β]
    (f : α → β) (hf : Monotone f) (h0 : f 0 = 0)
    (dA : ℕ → ℕ → α) (dB : ℕ → ℕ → β) (hd : ∀ i j, dB i j = f (dA i j))
    (subset : List ℕ) :
    subsetDiameter dB subset = f (subsetDiameter dA subset) := by
  unfold subsetDiameter
  by_cases h1 : subset.length = 1
  · rw [if_pos h1, if_pos h1, h0]
  · rw [if_neg h1, if_neg h1]
    have hmap : (((generateSubsets subset 2).filter (fun p => p.length = 2)).map
          (fun p => dB (p.getD 0 0) (p.getD 1 0)))
        = (((generateSubsets subset 2).filter (fun p => p.length = 2)).map
          (fun p => dA (p.getD 0 0) (p.getD 1 0))).map f := by
      rw [List.map_map]
      exact List.map_congr_left (fun p _ => hd _ _)
    rw [hmap, max?_map_mono f hf]
    cases (((generateSubsets subset 2).filter (fun p => p.length = 2)).map
        (fun p => dA (p.getD 0 0) (p.getD 1 0))).max? with
    | none => simpa using h0.symm
    | some x => rfl

theorem exceptMapError_map_comm {ε ε' A B : Type} (r : Except ε A) (g : A → B)
    (h : ε → ε') : (r.map g).mapError h = (r.mapError h).map g := by
  cases r <;> rfl

/-- `vietoris_rips_complex` commutes with a strictly monotone zero-preserving
relabelling of the distance matrix and threshold. -/
theorem vietorisRips_map {α β : Type} [LinearOrder α] [Zero α] [LinearOrder β] [Zero β]
    (f : α → β) (hf : StrictMono f) (h0 : f 0 = 0) (n maxDim : ℕ)
    (dA : ℕ → ℕ → α) (dB : ℕ → ℕ → β) (hd : ∀ i j, dB i j = f (dA i j))
    (thA : α) (thB : β) (hth : f thA = thB) :
    vietorisRips n dB maxDim thB = (vietorisRips n dA maxDim thA).map (mapSC f) := by
  unfold vietorisRips
  by_cases hdim : maxDim ≥ n
  · rw [if_pos hdim, if_pos hdim]
    rfl
  · rw [if_neg hdim, if_neg hdim]
    dsimp only
    have haccept : (generateSubsets (List.range n) (maxDim + 1)).filterMap
          (fun subset =>
            if subset.isEmpty then none
            else if subsetDiameter dB subset ≤ thB then
              some (Simplex.new subset, subsetDiameter dB subset) else none)
        = ((generateSubsets (List.range n) (maxDim + 1)).filterMap
          (fun subset =>
            if subset.isEmpty then none
            else if subsetDiameter dA subset ≤ thA then
              some (Simplex.new subset, subsetDiameter dA subset) else none)).map
          (Prod.map id f) := by
      rw [List.map_filterMap]
      refine List.filterMap_congr ?_
      intro subset _
      by_cases hemp : subset.isEmpty
      · rw [if_pos hemp, if_pos hemp]
        rfl
      · rw [if_neg hemp, if_neg hemp,
          subsetDiameter_map f hf.monotone h0 dA dB hd subset, ← hth]
        by_cases hth' : subsetDiameter dA subset ≤ thA
        · rw [if_pos ((hf.le_iff_le).mpr hth'), if_pos hth']
          rfl
        · rw [if_neg (fun hc => hth' ((hf.le_iff_le).mp hc)), if_neg hth']
          rfl
    rw [haccept, List.map_map, List.map_map]
    have hfst : (Prod.fst ∘ Prod.map id f) = (Prod.fst : Simplex × α → Simplex) := rfl
    have hsnd : (Prod.snd ∘ Prod.map (@id Simplex) f) = f ∘ Prod.snd := rfl
    rw [hfst, hsnd, ← List.map_map, mkComplex_map f hf]
    rw [exceptMapError_map_comm]

/-- Relabelling the levels of a simplicial complex does not change its
boundary operator (which only reads simplices and the index map). -/
theorem scBoundary_mapSC {α β : Type} (f : α → β) (c : SimplicialComplex α) :
    scBoundary (mapSC f c) = scBoundary c := rfl

theorem getD_map_zero {α β : Type} [Zero α] [Zero β] (f : α → β) (h0 : f 0 = 0)
    (l : List α) (i : ℕ) : (l.map f).getD i 0 = f (l.getD i 0) := by
  rw [List.getD_eq_getElem?_getD, List.getD_eq_getElem?_getD, List.getElem?_map]
  cases l[i]? with
  | none => simpa using h0.symm
  | some a => rfl

/-- The `ChainComplex` view of a level-relabelled complex is the original
view with relabelled filtration levels. -/
theorem chainOf_mapSC {α β : Type} [Zero α] [Zero β] (f : α → β) (h0 : f 0 = 0)
    (c : SimplicialComplex α) :
    chainOf (mapSC f c)
      = ⟨(chainOf c).n, (chainOf c).dim, fun i => f ((chainOf c).level i),
         (chainOf c).bdry⟩ := by
  unfold chainOf mapSC
  simp only
  congr 1
  funext i
  exact getD_map_zero f h0 c.levels i

theorem getD_map_nillist {α β : Type} (g : List α → List β) (hg : g [] = [])
    (l : List (List α)) (i : ℕ) : (l.map g).getD i [] = g (l.getD i []) := by
  rw [List.getD_eq_getElem?_getD, List.getD_eq_getElem?_getD, List.getElem?_map]
  cases l[i]? with
  | none => simpa using hg.symm
  | some a => rfl

/-- One step of the main reduction loop commutes with relabelling the
levels: the reduction state is level-independent and the interval buckets
are relabelled. -/
theorem stepMain_map {α β : Type} (f : α → β) (C : ChainCplx α)
    (st : RState) (bks : List (List (PInterval α))) (i : ℕ) :
    stepMain (⟨C.n, C.dim, fun j => f (C.level j), C.bdry⟩ : ChainCplx β)
        (st, bks.map (List.map (mapPI f))) i
      = ((stepMain C (st, bks) i).1,
         (stepMain C (st, bks) i).2.map (List.map (mapPI f))) := by
  unfold stepMain
  dsimp only
  have hrp : removePivotRows (⟨C.n, C.dim, fun j => f (C.level j), C.bdry⟩ : ChainCplx β)
      st i = removePivotRows C st i := rfl
  rw [hrp]
  by_cases hB : removePivotRows C st i = ∅
  · rw [if_pos hB, if_pos hB]
  · rw [if_neg hB, if_neg hB]
    dsimp only
    congr 1
    rw [List.map_set]
    congr 1
    rw [List.map_append,
      getD_map_nillist (List.map (mapPI f)) rfl bks
        (C.dim ((removePivotRows C st i).max.unbot' 0))]
    rfl

/-- The main loop of `compute_intervals` commutes with relabelling the
levels. -/
theorem foldMain_map {α β : Type} (f : α → β) (C : ChainCplx α) :
    ∀ (l : List ℕ) (st : RState) (bks : List (List (PInterval α))),
    l.foldl (stepMain (⟨C.n, C.dim, fun j => f (C.level j), C.bdry⟩ : ChainCplx β))
        (st, bks.map (List.map (mapPI f)))
      = ((l.foldl (stepMain C) (st, bks)).1,
         (l.foldl (stepMain C) (st, bks)).2.map (List.map (mapPI f))) := by
  intro l
  induction l with
  | nil => intro st bks; rfl
  | cons i l ih =>
    intro st bks
    rw [List.foldl_cons, List.foldl_cons, stepMain_map f C st bks i]
    exact ih (stepMain C (st, bks) i).1 (stepMain C (st, bks) i).2

/-- The final infinite-interval sweep commutes with relabelling the
levels. -/
theorem finalPass_map {α β : Type} (f : α → β) (C : ChainCplx α) (st : RState) :
    ∀ (l : List ℕ) (ivs : List (List (PInterval α))),
    l.foldl (fun acc j =>
        if j ∈ st.marked ∧ st.coB j = ∅ then
          acc.set (C.dim j) (acc.getD (C.dim j) [] ++ [⟨f (C.level j), ⊤⟩])
        else acc) (ivs.map (List.map (mapPI f)))
      = (l.foldl (fun acc j =>
          if j ∈ st.marked ∧ st.coB j = ∅ then
            acc.set (C.dim j) (acc.getD (C.dim j) [] ++ [⟨C.level j, ⊤⟩])
          else acc) ivs).map (List.map (mapPI f)) := by
  intro l
  induction l with
  | nil => intro ivs; rfl
  | cons j l ih =>
    intro ivs
    rw [List.foldl_cons, List.foldl_cons]
    by_cases hj : j ∈ st.marked ∧ st.coB j = ∅
    · rw [if_pos hj, if_pos hj]
      have hset : (ivs.map (List.map (mapPI f))).set (C.dim j)
            ((ivs.map (List.map (mapPI f))).getD (C.dim j) [] ++ [⟨f (C.level j), ⊤⟩])
          = (ivs.set (C.dim j) (ivs.getD (C.dim j) [] ++ [⟨C.level j, ⊤⟩])).map
              (List.map (mapPI f)) := by
        rw [List.map_set]
        congr 1
        rw [List.map_append,
          getD_map_nillist (List.map (mapPI f)) rfl ivs (C.dim j)]
        rfl
      rw [hset]
      exact ih _
    · rw [if_neg hj, if_neg hj]
      exact ih ivs

/-- `compute_intervals` commutes with relabelling the filtration levels. -/
theorem computeIntervals_map {α β : Type} (f : α → β) (C : ChainCplx α) :
    computeIntervals (⟨C.n, C.dim, fun j => f (C.level j), C.bdry⟩ : ChainCplx β)
      = (computeIntervals C).map (List.map (List.map (mapPI f))) := by
  unfold computeIntervals
  dsimp only
  cases hmd : ((List.range C.n).map C.dim).max? with
  | none => rfl
  | some md =>
    unfold mainFold finalPass
    dsimp only
    have hrepl : (List.replicate (md + 1) ([] : List (PInterval α))).map
          (List.map (mapPI f))
        = List.replicate (md + 1) ([] : List (PInterval β)) := by
      rw [List.map_replicate]
      rfl
    rw [← hrepl, foldMain_map f C (List.range C.n) ⟨∅, fun _ => ∅⟩
      (List.replicate (md + 1) [])]
    rw [finalPass_map f C _ (List.range C.n)]
    rfl

/-! ## The concrete scenarios over real Euclidean distances -/

/-- The unit-square point cloud of Scenario B. -/
noncomputable def sqPoints : List (List ℝ) := [[0, 0], [1, 0], [1, 1], [0, 1]]

/-- The triangle point cloud of Scenario A (pairwise distances 1, 2, √5). -/
noncomputable def triPoints : List (List ℝ) := [[0, 0], [1, 0], [1, 2]]

/-- Square root of a natural number, the transport map from squared to plain
Euclidean distances. -/
noncomputable def sqrtN (n : ℕ) : ℝ := Real.sqrt n

theorem sqrtN_strictMono : StrictMono sqrtN := fun a b h =>
  Real.sqrt_lt_sqrt (Nat.cast_nonneg a) (by exact_mod_cast h)

theorem sqrtN_zero : sqrtN 0 = 0 := by simp [sqrtN]

theorem sqrtN_one : sqrtN 1 = 1 := by simp [sqrtN]

theorem sqrtN_two : sqrtN 2 = Real.sqrt 2 := by norm_num [sqrtN]

theorem sqrtN_four : sqrtN 4 = 2 := by
  rw [sqrtN, show ((4 : ℕ) : ℝ) = 2 ^ 2 by norm_num]
  exact Real.sqrt_sq (by norm_num)

theorem sqrtN_five : sqrtN 5 = Real.sqrt 5 := by norm_num [sqrtN]

theorem sqrtN_hundred : sqrtN 100 = 10 := by
  rw [sqrtN, show ((100 : ℕ) : ℝ) = 10 ^ 2 by norm_num]
  exact Real.sqrt_sq (by norm_num)

/-- The Euclidean distances of the square point cloud are the square roots of
the `dSquareN` squared distances. -/
theorem dSquare_bridge : ∀ i j, pairwiseDist sqPoints i j = sqrtN (dSquareN i j) := by
  intro i j
  rcases i with _ | _ | _ | _ | i <;> rcases j with _ | _ | _ | _ | j <;>
    simp only [pairwiseDist, sqPoints, euclideanDistance, sqrtN, dSquareN,
      List.getD_eq_getElem?_getD, List.getElem?_cons_zero, List.getElem?_cons_succ,
      List.getElem?_nil, Option.getD_some, Option.getD_none, List.zip_cons_cons,
      List.zip_nil_left, List.zip_nil_right, List.map_cons, List.map_nil,
      List.sum_cons, List.sum_nil] <;>
    norm_num

/-- The Euclidean distances of the triangle point cloud are the square roots
of the `dTriangleN` squared distances. -/
theorem dTriangle_bridge : ∀ i j,
    pairwiseDist triPoints i j = sqrtN (dTriangleN i j) := by
  intro i j
  rcases i with _ | _ | _ | i <;> rcases j with _ | _ | _ | j <;>
    simp only [pairwiseDist, triPoints, euclideanDistance, sqrtN, dTriangleN,
      List.getD_eq_getElem?_getD, List.getElem?_cons_zero, List.getElem?_cons_succ,
      List.getElem?_nil, Option.getD_some, Option.getD_none, List.zip_cons_cons,
      List.zip_nil_left, List.zip_nil_right, List.map_cons, List.map_nil,
      List.sum_cons, List.sum_nil] <;>
    norm_num

/-- C9: for the 3 points at pairwise Euclidean distances 1, 2, √5,
`vietoris_rips_complex(2, 10)` yields exactly 7 simplices — the 3 vertices,
the 3 edges and the triangle — with filtration levels
`[0, 0, 0, 1, 2, √5, √5]`, already in sorted order. -/
theorem c9_triangle_complex :
    (vietorisRips 3 (pairwiseDist triPoints) 2 10).map
        (fun c => (c.simplices, c.levels))
      = .ok ([⟨[0]⟩, ⟨[1]⟩, ⟨[2]⟩, ⟨[0, 1]⟩, ⟨[1, 2]⟩, ⟨[0, 2]⟩, ⟨[0, 1, 2]⟩],
          [0, 0, 0, 1, 2, Real.sqrt 5, Real.sqrt 5]) := by
  rw [vietorisRips_map sqrtN sqrtN_strictMono sqrtN_zero 3 2 dTriangleN
    (pairwiseDist triPoints) dTriangle_bridge 100 10 sqrtN_hundred, tri_vietoris_N]
  show Except.ok ((mapSC sqrtN triComplexN).simplices, (mapSC sqrtN triComplexN).levels) = _
  simp only [mapSC, triComplexN, triSimplices, List.map_cons, List.map_nil,
    sqrtN_zero, sqrtN_one, sqrtN_four, sqrtN_five]

theorem withTopMap_some {α β : Type} (f : α → β) (a : α) :
    WithTop.map f (WithTop.some a) = WithTop.some (f a) := rfl

/-- C1: for the 4 corners of the unit square, the Vietoris-Rips complex at
`max_dimension 2`, `threshold 10` followed by the persistence computation
yields exactly: dimension 0 — three finite intervals `(0, 1)` and one
infinite interval with birth 0; dimension 1 — two intervals `(√2, √2)` and
one `(1, √2)`; dimension 2 — one infinite interval with birth `√2`. -/
theorem c1_square_persistence :
    (vietorisRips 4 (pairwiseDist sqPoints) 2 10).map
        (fun c => computeIntervals (chainOf c))
      = .ok (some
          [[⟨0, WithTop.some (1 : ℝ)⟩, ⟨0, WithTop.some (1 : ℝ)⟩,
            ⟨0, WithTop.some (1 : ℝ)⟩, ⟨0, ⊤⟩],
           [⟨Real.sqrt 2, WithTop.some (Real.sqrt 2)⟩,
            ⟨Real.sqrt 2, WithTop.some (Real.sqrt 2)⟩,
            ⟨1, WithTop.some (Real.sqrt 2)⟩],
           [⟨Real.sqrt 2, ⊤⟩]]) := by
  rw [vietorisRips_map sqrtN sqrtN_strictMono sqrtN_zero 4 2 dSquareN
    (pairwiseDist sqPoints) dSquare_bridge 100 10 sqrtN_hundred, sq_vietoris_N]
  show Except.ok (computeIntervals (chainOf (mapSC sqrtN sqComplexN))) = _
  rw [chainOf_mapSC sqrtN sqrtN_zero sqComplexN,
    computeIntervals_map sqrtN (chainOf sqComplexN), sq_intervals_N]
  simp only [Option.map_some', sqBucketsN, List.map_cons, List.map_nil, mapPI,
    withTopMap_some, WithTop.map_top, sqrtN_zero, sqrtN_one, sqrtN_two]


/-! ## Correctness of the combination odometer

Specification side: `lexCombs n lo k` enumerates, in lexicographic order,
every strictly increasing `k`-element list over `[lo, n)` — the first
element ranges over `[lo, n)` in increasing order, and for each first
element the tails are enumerated recursively.  The odometer of
`Combinations::next` is proved to walk exactly this enumeration. -/

/-- All strictly increasing `k`-element lists of values in `[lo, n)`, in
lexicographic order. -/
def lexCombs (n : ℕ) : ℕ → ℕ → List (List ℕ)
  | _, 0 => [[]]
  | lo, k + 1 =>
    (List.range' lo (n - lo)).flatMap (fun a => (lexCombs n (a + 1) k).map (a :: ·))

/-- A valid odometer state: `k` strictly increasing indices below `n`. -/
def ValidIx (n k : ℕ) (c : List ℕ) : Prop :=
  c.length = k ∧ c.Pairwise (· < ·) ∧ ∀ x ∈ c, x < n

/-- The suffix of the enumeration starting at a given state: combinations
that share the head and have a tail ≥ the current tail, then all
combinations with a larger head. -/
def suffCombs (n : ℕ) : List ℕ → List (List ℕ)
  | [] => [[]]
  | a :: t => (suffCombs n t).map (a :: ·) ++ lexCombs n (a + 1) (t.length + 1)

theorem lexCombs_empty (n : ℕ) : ∀ k lo, n < lo + (k + 1) → lexCombs n lo (k + 1) = [] := by
  intro k
  induction k with
  | zero =>
    intro lo h
    show (List.range' lo (n - lo)).flatMap _ = []
    rw [show n - lo = 0 by omega]
    rfl
  | succ k ih =>
    intro lo h
    show (List.range' lo (n - lo)).flatMap _ = []
    rw [List.flatMap_eq_nil_iff]
    intro a ha
    rw [List.mem_range'_1] at ha
    rw [ih (a + 1) (by omega), List.map_nil]

theorem lexCombs_unfold (n lo k : ℕ) (h : lo < n) :
    lexCombs n lo (k + 1)
      = ((lexCombs n (lo + 1) k).map (lo :: ·)) ++ lexCombs n (lo + 1) (k + 1) := by
  show (List.range' lo (n - lo)).flatMap _ = _
  have hr : List.range' lo (n - lo) = lo :: List.range' (lo + 1) (n - (lo + 1)) := by
    have : n - lo = (n - (lo + 1)) + 1 := by omega
    rw [this, List.range'_succ]
  rw [hr, List.flatMap_cons]
  rfl

theorem mem_lexCombs (n : ℕ) : ∀ k lo (c : List ℕ),
    c ∈ lexCombs n lo k
      ↔ c.length = k ∧ c.Pairwise (· < ·) ∧ ∀ x ∈ c, lo ≤ x ∧ x < n := by
  intro k
  induction k with
  | zero =>
    intro lo c
    show c ∈ [[]] ↔ _
    simp only [List.mem_singleton]
    constructor
    · rintro rfl
      exact ⟨rfl, List.Pairwise.nil, by simp⟩
    · rintro ⟨hl, -, -⟩
      exact List.eq_nil_of_length_eq_zero hl
  | succ k ih =>
    intro lo c
    show c ∈ (List.range' lo (n - lo)).flatMap _ ↔ _
    rw [List.mem_flatMap]
    constructor
    · rintro ⟨a, ha, hc⟩
      rw [List.mem_range'_1] at ha
      rw [List.mem_map] at hc
      obtain ⟨t, ht, rfl⟩ := hc
      obtain ⟨htl, htp, htb⟩ := (ih (a + 1) t).mp ht
      refine ⟨by simp [htl], List.pairwise_cons.mpr ⟨fun x hx => ?_, htp⟩, ?_⟩
      · exact Nat.lt_of_succ_le (htb x hx).1
      · intro x hx
        rcases List.mem_cons.mp hx with rfl | hx
        · exact ⟨ha.1, by omega⟩
        · exact ⟨Nat.le_trans ha.1 (Nat.le_of_succ_le (htb x hx).1), (htb x hx).2⟩
    · rintro ⟨hl, hp, hb⟩
      cases c with
      | nil => simp at hl
      | cons a t =>
        refine ⟨a, ?_, ?_⟩
        · rw [List.mem_range'_1]
          have := hb a (by simp)
          omega
        · rw [List.mem_map]
          refine ⟨t, (ih (a + 1) t).mpr ⟨by simpa using hl, (List.pairwise_cons.mp hp).2,
            fun x hx => ⟨(List.pairwise_cons.mp hp).1 x hx,
              (hb x (List.mem_cons_of_mem a hx)).2⟩⟩, rfl⟩

theorem suffCombs_ne_nil (n : ℕ) : ∀ t : List ℕ, suffCombs n t ≠ [] := by
  intro t
  induction t with
  | nil => simp [suffCombs]
  | cons a t ih =>
    show (suffCombs n t).map (a :: ·) ++ _ ≠ []
    simp only [ne_eq, List.append_eq_nil, List.map_eq_nil_iff]
    rintro ⟨h, -⟩
    exact ih h

/-- The suffix of the enumeration starting at the minimal state
`[lo, lo+1, …, lo+k-1]` is the whole enumeration. -/
theorem suffCombs_min (n : ℕ) : ∀ k lo, lo + k ≤ n →
    suffCombs n (List.range' lo k) = lexCombs n lo k := by
  intro k
  induction k with
  | zero => intro lo _; rfl
  | succ k ih =>
    intro lo h
    rw [List.range'_succ]
    show (suffCombs n (List.range' (lo + 1) k)).map (lo :: ·) ++
      lexCombs n (lo + 1) ((List.range' (lo + 1) k).length + 1) = _
    rw [List.length_range', ih (lo + 1) (by omega), lexCombs_unfold n lo k (by omega)]

theorem length_lexCombs_le (n : ℕ) : ∀ k lo, (lexCombs n lo k).length ≤ (n + 1) ^ k := by
  intro k
  induction k with
  | zero => intro lo; simp [lexCombs]
  | succ k ih =>
    intro lo
    show ((List.range' lo (n - lo)).flatMap _).length ≤ _
    rw [List.length_flatMap]
    have h1 : ∀ y ∈ (List.range' lo (n - lo)).map
        (fun a => ((lexCombs n (a + 1) k).map (a :: ·)).length), y ≤ (n + 1) ^ k := by
      intro y hy
      rw [List.mem_map] at hy
      obtain ⟨a, -, rfl⟩ := hy
      rw [List.length_map]
      exact ih (a + 1)
    calc ((List.range' lo (n - lo)).map
          (fun a => ((lexCombs n (a + 1) k).map (a :: ·)).length)).sum
        ≤ ((List.range' lo (n - lo)).map
          (fun a => ((lexCombs n (a + 1) k).map (a :: ·)).length)).length * (n + 1) ^ k :=
          List.sum_le_card_nsmul _ _ h1
      _ ≤ (n + 1) * (n + 1) ^ k := by
          rw [List.length_map, List.length_range']
          exact Nat.mul_le_mul_right _ (by omega)
      _ = (n + 1) ^ (k + 1) := by ring


/-! ## The odometer advance is the successor in the enumeration -/

theorem advanceAux_zero (len size : ℕ) (ix : List ℕ) :
    advanceAux len size ix 0 = none := rfl

theorem advanceAux_succ (len size : ℕ) (ix : List ℕ) (p : ℕ) :
    advanceAux len size ix (p + 1)
      = if ix.getD p 0 = p + len - size then advanceAux len size ix p
        else some (ix.take p ++
          (List.range (size - p)).map (fun j => ix.getD p 0 + 1 + j)) := rfl

theorem advanceAux_cons_some (len k a : ℕ) (t : List ℕ) :
    ∀ (p : ℕ) (u' : List ℕ), advanceAux len k t p = some u' →
    advanceAux len (k + 1) (a :: t) (p + 1) = some (a :: u') := by
  intro p
  induction p with
  | zero =>
    intro u' h
    rw [advanceAux_zero] at h
    exact absurd h (by simp)
  | succ p ih =>
    intro u' h
    rw [advanceAux_succ] at h
    rw [advanceAux_succ, List.getD_cons_succ,
      show p + 1 + len - (k + 1) = p + len - k from by omega]
    by_cases hc : t.getD p 0 = p + len - k
    · rw [if_pos hc] at h
      rw [if_pos hc]
      exact ih u' h
    · rw [if_neg hc] at h
      obtain rfl := Option.some.inj h
      rw [if_neg hc, List.take_succ_cons, List.cons_append,
        show k + 1 - (p + 1) = k - p from by omega]

theorem advanceAux_cons_none (len k a : ℕ) (t : List ℕ) :
    ∀ (p : ℕ), advanceAux len k t p = none →
    advanceAux len (k + 1) (a :: t) (p + 1)
      = if a = len - (k + 1) then none
        else some ((List.range (k + 1)).map (fun j => a + 1 + j)) := by
  intro p
  induction p with
  | zero =>
    intro _
    rw [advanceAux_succ, List.getD_cons_zero, Nat.zero_add, advanceAux_zero,
      List.take_zero, Nat.sub_zero, List.nil_append]
  | succ p ih =>
    intro h
    rw [advanceAux_succ] at h
    rw [advanceAux_succ, List.getD_cons_succ,
      show p + 1 + len - (k + 1) = p + len - k from by omega]
    by_cases hc : t.getD p 0 = p + len - k
    · rw [if_pos hc] at h
      rw [if_pos hc]
      exact ih h
    · rw [if_neg hc] at h
      exact absurd h (by simp)

theorem validIx_tail {n k a : ℕ} {u : List ℕ} (h : ValidIx n (k + 1) (a :: u)) :
    ValidIx n k u :=
  ⟨by have := h.1; simpa using this, (List.pairwise_cons.mp h.2.1).2,
   fun x hx => h.2.2 x (List.mem_cons_of_mem a hx)⟩

theorem head_add_length_le (n : ℕ) : ∀ l : List ℕ, l.Pairwise (· < ·) →
    (∀ x ∈ l, x < n) → l.headD 0 + l.length ≤ n := by
  intro l
  induction l with
  | nil => intro _ _; simp
  | cons a u ih =>
    intro hp hb
    cases u with
    | nil =>
      have := hb a (by simp)
      simpa using this
    | cons b v =>
      have h1 := ih (List.pairwise_cons.mp hp).2 (fun x hx => hb x (List.mem_cons_of_mem a hx))
      have h2 : a < b := (List.pairwise_cons.mp hp).1 b (by simp)
      simp only [List.headD_cons, List.length_cons] at h1 ⊢
      omega

theorem headD_le_of_mem_sorted {l : List ℕ} (hp : l.Pairwise (· < ·)) :
    ∀ x ∈ l, l.headD 0 ≤ x := by
  cases l with
  | nil => intro x hx; simp at hx
  | cons a u =>
    intro x hx
    rcases List.mem_cons.mp hx with rfl | hx
    · simp
    · exact Nat.le_of_lt ((List.pairwise_cons.mp hp).1 x hx)

/-- If the odometer cannot advance from a valid state, that state is the last
combination of the enumeration. -/
theorem advance_none_suff (n : ℕ) : ∀ t : List ℕ, ValidIx n t.length t →
    advanceAux n t.length t t.length = none → suffCombs n t = [t] := by
  intro t
  induction t with
  | nil => intro _ _; rfl
  | cons a u ih =>
    intro hv hadv
    rw [show (a :: u).length = u.length + 1 from rfl] at hadv
    cases hu : advanceAux n u.length u u.length with
    | some u' =>
      rw [advanceAux_cons_some n u.length a u u.length u' hu] at hadv
      exact absurd hadv (by simp)
    | none =>
      rw [advanceAux_cons_none n u.length a u u.length hu] at hadv
      by_cases ha : a = n - (u.length + 1)
      · have hsu : suffCombs n u = [u] := ih (validIx_tail hv) hu
        show (suffCombs n u).map (a :: ·) ++ lexCombs n (a + 1) (u.length + 1) = [a :: u]
        have hbound : a + (u.length + 1) ≤ n := by
          have := head_add_length_le n (a :: u) hv.2.1 hv.2.2
          simpa using this
        rw [hsu, lexCombs_empty n u.length (a + 1) (by omega)]
        rfl
      · rw [if_neg ha] at hadv
        exact absurd hadv (by simp)

/-- If the odometer advances from a valid state, the new state is valid, its
head did not decrease, and the enumeration suffix of the old state is the old
state followed by the suffix of the new state. -/
theorem advance_some_suff (n : ℕ) : ∀ t t' : List ℕ, ValidIx n t.length t →
    advanceAux n t.length t t.length = some t' →
    ValidIx n t.length t' ∧ t.headD 0 ≤ t'.headD 0
      ∧ suffCombs n t = t :: suffCombs n t' := by
  intro t
  induction t with
  | nil =>
    intro t' _ h
    rw [show ([] : List ℕ).length = 0 from rfl, advanceAux_zero] at h
    exact absurd h (by simp)
  | cons a u ih =>
    intro t' hv hadv
    rw [show (a :: u).length = u.length + 1 from rfl] at hadv
    cases hu : advanceAux n u.length u u.length with
    | some u' =>
      rw [advanceAux_cons_some n u.length a u u.length u' hu] at hadv
      rw [Option.some.injEq] at hadv
      obtain rfl := hadv.symm
      obtain ⟨hvu, hhead, hsuff⟩ := ih u' (validIx_tail hv) hu
      have hune : u ≠ [] := by
        rintro rfl
        rw [show ([] : List ℕ).length = 0 from rfl, advanceAux_zero] at hu
        exact absurd hu (by simp)
      have hau : ∀ x ∈ u', a < x := by
        intro x hx
        have h1 : a < u.headD 0 := by
          cases u with
          | nil => exact absurd rfl hune
          | cons b v => exact (List.pairwise_cons.mp hv.2.1).1 b (by simp)
        exact Nat.lt_of_lt_of_le (Nat.lt_of_lt_of_le h1 hhead)
          (headD_le_of_mem_sorted hvu.2.1 x hx)
      refine ⟨⟨by simp [hvu.1], List.pairwise_cons.mpr ⟨hau, hvu.2.1⟩, ?_⟩, by simp, ?_⟩
      · intro x hx
        rcases List.mem_cons.mp hx with rfl | hx
        · exact hv.2.2 x (by simp)
        · exact hvu.2.2 x hx
      · show (suffCombs n u).map (a :: ·) ++ lexCombs n (a + 1) (u.length + 1)
          = (a :: u) :: ((suffCombs n u').map (a :: ·) ++ lexCombs n (a + 1) (u'.length + 1))
        rw [hsuff, hvu.1, List.map_cons, List.cons_append]
    | none =>
      rw [advanceAux_cons_none n u.length a u u.length hu] at hadv
      by_cases ha : a = n - (u.length + 1)
      · rw [if_pos ha] at hadv
        exact absurd hadv (by simp)
      · rw [if_neg ha] at hadv
        rw [Option.some.injEq] at hadv
        obtain rfl := hadv.symm
        have hbound : a + (u.length + 1) ≤ n := by
          have := head_add_length_le n (a :: u) hv.2.1 hv.2.2
          simpa using this
        have hlt : a + 1 + (u.length + 1) ≤ n := by omega
        have hrange : (List.range (u.length + 1)).map (fun j => a + 1 + j)
            = List.range' (a + 1) (u.length + 1) := by
          rw [List.range'_eq_map_range]
        have htop : suffCombs n u = [u] := advance_none_suff n u (validIx_tail hv) hu
        refine ⟨?_, ?_, ?_⟩
        · refine ⟨by simp, ?_, ?_⟩
          · rw [hrange]
            have : (List.range' (a + 1) (u.length + 1)).Pairwise (· < ·) := by
              rw [List.range'_eq_map_range]
              exact (List.pairwise_lt_range _).map _ (fun hab => by omega)
            exact this
          · intro x hx
            rw [hrange, List.mem_range'_1] at hx
            omega
        · rw [hrange, List.range'_succ]
          simp only [List.headD_cons]
          omega
        · show (suffCombs n u).map (a :: ·) ++ lexCombs n (a + 1) (u.length + 1) = _
          rw [htop, hrange, suffCombs_min n (u.length + 1) (a + 1) hlt]
          have hlen2 : (List.range' (a + 1) (u.length + 1)).length = u.length + 1 := by
            simp
          rfl

/-- Index-level collection loop of the iterator. -/
def collectIdx (len k : ℕ) : ℕ → List ℕ → List (List ℕ)
  | 0, _ => []
  | fuel + 1, ix =>
    match advanceAux len k ix k with
    | none => []
    | some ix' => ix' :: collectIdx len k fuel ix'

/-- The iterator run from any valid state, given enough fuel, is exactly the
suffix of the lexicographic enumeration starting at that state. -/
theorem collectIdx_suff (n : ℕ) : ∀ (fuel : ℕ) (ix : List ℕ),
    ValidIx n ix.length ix → (suffCombs n ix).length ≤ fuel + 1 →
    ix :: collectIdx n ix.length fuel ix = suffCombs n ix := by
  intro fuel
  induction fuel with
  | zero =>
    intro ix hv hlen
    cases hadv : advanceAux n ix.length ix ix.length with
    | none =>
      rw [advance_none_suff n ix hv hadv]
      rfl
    | some ix' =>
      obtain ⟨-, -, hsuff⟩ := advance_some_suff n ix ix' hv hadv
      rw [hsuff] at hlen
      have := suffCombs_ne_nil n ix'
      have : 0 < (suffCombs n ix').length := List.length_pos.mpr this
      simp only [List.length_cons] at hlen
      omega
  | succ fuel ih =>
    intro ix hv hlen
    cases hadv : advanceAux n ix.length ix ix.length with
    | none =>
      rw [advance_none_suff n ix hv hadv]
      show [ix] ++ collectIdx n ix.length (fuel + 1) ix = [ix]
      show ix :: (match advanceAux n ix.length ix ix.length with
        | none => []
        | some ix' => ix' :: collectIdx n ix.length fuel ix') = [ix]
      rw [hadv]
    | some ix' =>
      obtain ⟨hv', -, hsuff⟩ := advance_some_suff n ix ix' hv hadv
      have hlen' : ix'.length = ix.length := hv'.1
      show ix :: (match advanceAux n ix.length ix ix.length with
        | none => []
        | some j => j :: collectIdx n ix.length fuel j) = _
      rw [hadv, hsuff]
      have hv2 : ValidIx n ix'.length ix' := by rw [hlen']; exact hv'
      have hrec := ih ix' hv2 (by
        rw [hsuff] at hlen
        simp only [List.length_cons] at hlen
        omega)
      rw [hlen'] at hrec
      show ix :: ix' :: collectIdx n ix.length fuel ix' = ix :: suffCombs n ix'
      rw [hrec]


/-! ## `generate_combinations` and `generate_subsets` produce the
lexicographic enumeration -/

theorem collectAux_eq_collectIdx (elements : List ℕ) (k : ℕ) :
    ∀ (fuel : ℕ) (ix : List ℕ),
    collectAux fuel ⟨elements, ix, false, k⟩
      = (collectIdx elements.length k fuel ix).map
          (List.map (fun i => elements.getD i 0)) := by
  intro fuel
  induction fuel with
  | zero => intro ix; rfl
  | succ fuel ih =>
    intro ix
    cases hadv : advanceAux elements.length k ix k with
    | none =>
      simp only [collectAux, Combinations.next, Bool.false_eq_true, if_false, hadv,
        collectIdx, List.map_nil]
    | some ix' =>
      simp only [collectAux, Combinations.next, Bool.false_eq_true, if_false, hadv,
        collectIdx, List.map_cons, ih ix']

/-- `generate_combinations(elements, size)` with passing guards returns the
full lexicographic enumeration of the strictly increasing index lists, mapped
through `elements`. -/
theorem generateCombinations_ok (elements : List ℕ) (k : ℕ)
    (hk : k ≤ elements.length)
    (hguard : binomFold elements.length k ≤ 10000000) :
    generateCombinations elements k
      = .ok ((lexCombs elements.length 0 k).map
          (List.map (fun i => elements.getD i 0))) := by
  unfold generateCombinations Combinations.new
  rw [if_neg (by omega), if_neg (by omega)]
  show Except.ok (collectAux ((elements.length + 1) ^ k + 1)
    ⟨elements, List.range k, true, k⟩) = _
  have hfirst : collectAux ((elements.length + 1) ^ k + 1)
      ⟨elements, List.range k, true, k⟩
      = (List.range k).map (fun i => elements.getD i 0) ::
        collectAux ((elements.length + 1) ^ k) ⟨elements, List.range k, false, k⟩ := rfl
  rw [hfirst, collectAux_eq_collectIdx elements k _ (List.range k)]
  have hval : ValidIx elements.length (List.range k).length (List.range k) := by
    refine ⟨rfl, List.pairwise_lt_range k, fun x hx => ?_⟩
    rw [List.mem_range] at hx
    omega
  have hsuffix : suffCombs elements.length (List.range k)
      = lexCombs elements.length 0 k := by
    rw [List.range_eq_range']
    exact suffCombs_min elements.length k 0 (by omega)
  have hrun := collectIdx_suff elements.length ((elements.length + 1) ^ k)
    (List.range k) hval (by
      rw [hsuffix]
      have := length_lexCombs_le elements.length k 0
      omega)
  rw [List.length_range, hsuffix] at hrun
  rw [← hrun, List.map_cons]

/-- The `generate_subsets` size loop, when no size trips the guard, produces
the concatenation of the per-size enumerations. -/
theorem subsetsGo_ok (elements : List ℕ) : ∀ (cnt size : ℕ),
    (∀ j, size ≤ j → j < size + cnt →
      j ≤ elements.length ∧ binomFold elements.length j ≤ 10000000) →
    subsetsGo elements cnt size
      = (List.range' size cnt).flatMap
          (fun k => (lexCombs elements.length 0 k).map
            (List.map (fun i => elements.getD i 0))) := by
  intro cnt
  induction cnt with
  | zero => intro size _; rfl
  | succ cnt ih =>
    intro size hg
    show (match generateCombinations elements size with
      | .ok cs => cs ++ subsetsGo elements cnt (size + 1)
      | .error _ => []) = _
    rw [generateCombinations_ok elements size (hg size le_rfl (by omega)).1
      (hg size le_rfl (by omega)).2]
    rw [ih (size + 1) (fun j h1 h2 => hg j (by omega) (by omega))]
    rw [List.range'_succ, List.flatMap_cons]

/-- Specification-side `generate_subsets`: all subsets of size `0..max_size`,
the empty subset first, grouped by increasing size, each size block in
lexicographic index order. -/
def specSubsets (elements : List ℕ) (maxSize : ℕ) : List (List ℕ) :=
  (List.range (maxSize + 1)).flatMap
    (fun k => (lexCombs elements.length 0 k).map
      (List.map (fun i => elements.getD i 0)))

/-- C8, the claim as stated: `generate_subsets(elements, max_size)` returns
exactly the subsets of sizes `0..=max_size` in the claimed order. -/
def C8Claim (elements : List ℕ) (maxSize : ℕ) : Prop :=
  generateSubsets elements maxSize = specSubsets elements maxSize

/-- C8 (amended): the claimed enumeration holds provided no requested size
trips the 10,000,000-combination guard (the unamended claim fails because
`generate_subsets` silently `break`s at the first size whose count exceeds
the guard). -/
theorem c8_subsets_amended (elements : List ℕ) (maxSize : ℕ)
    (hguard : ∀ k ∈ List.range' 1 (min maxSize elements.length),
      binomFold elements.length k ≤ 10000000) :
    C8Claim elements maxSize := by
  unfold C8Claim generateSubsets specSubsets
  rw [subsetsGo_ok elements (min maxSize elements.length) 1 (fun j h1 h2 => by
    refine ⟨by omega, hguard j ?_⟩
    rw [List.mem_range'_1]
    omega)]
  have hr : List.range (maxSize + 1) = 0 :: List.range' 1 maxSize := by
    rw [List.range_eq_range', List.range'_succ]
  rw [hr, List.flatMap_cons]
  show _ = (lexCombs elements.length 0 0).map _ ++ _
  rw [show (lexCombs elements.length 0 0).map
      (List.map (fun i => elements.getD i 0)) = [[]] from rfl]
  rw [List.singleton_append]
  congr 1
  rcases Nat.le_total maxSize elements.length with hle | hle
  · rw [Nat.min_eq_left hle]
  · rw [Nat.min_eq_right hle]
    have hsplit : List.range' 1 maxSize
        = List.range' 1 elements.length ++
          List.range' (1 + elements.length) (maxSize - elements.length) := by
      rw [List.range'_append_1]
      congr 1
      omega
    rw [hsplit, List.flatMap_append]
    have htail : (List.range' (1 + elements.length) (maxSize - elements.length)).flatMap
        (fun k => (lexCombs elements.length 0 k).map
          (List.map (fun i => elements.getD i 0))) = [] := by
      rw [List.flatMap_eq_nil_iff]
      intro k hk
      rw [List.mem_range'_1] at hk
      have hk1 : elements.length < 0 + ((k - 1) + 1) := by omega
      rw [show k = (k - 1) + 1 from by omega,
        lexCombs_empty elements.length (k - 1) 0 hk1]
      rfl
    rw [htail, List.append_nil]

/-- One unfolding step of the size loop. -/
theorem subsetsGo_one (elements : List ℕ) (size : ℕ) :
    subsetsGo elements 1 size
      = match generateCombinations elements size with
        | .ok cs => cs ++ subsetsGo elements 0 (size + 1)
        | .error _ => [] := rfl

/-- C8 counterexample: for 10,000,001 elements and `max_size = 1`, even size
1 trips the guard (`C(10000001,1) > 10,000,000`), `generate_subsets` breaks
immediately and returns only the empty subset, not the claimed `1 + 10000001`
subsets. -/
theorem c8_subsets_counterexample : ¬ C8Claim (List.range 10000001) 1 := by
  intro h
  unfold C8Claim at h
  have herr : generateCombinations (List.range 10000001) 1
      = .error (.TooLarge (binomFold 10000001 1)) := by
    unfold generateCombinations Combinations.new
    rw [List.length_range]
    rw [if_neg (by omega), if_pos (by decide)]
    rfl
  have hlhs : generateSubsets (List.range 10000001) 1 = [[]] := by
    unfold generateSubsets
    rw [show min 1 (List.range 10000001).length = 1 by
      rw [List.length_range]; omega]
    rw [subsetsGo_one, herr]
  have hlen : (specSubsets (List.range 10000001) 1).length = 10000002 := by
    unfold specSubsets
    rw [show List.range (1 + 1) = [0, 1] from rfl]
    rw [List.flatMap_cons, List.flatMap_cons, List.flatMap_nil]
    rw [List.length_append, List.length_append]
    rw [show ((lexCombs (List.range 10000001).length 0 0).map
      (List.map (fun i => (List.range 10000001).getD i 0))).length = 1 from rfl]
    have h1 : ∀ m lo, (lexCombs m lo 1).length = m - lo := by
      intro m lo
      show ((List.range' lo (m - lo)).flatMap
        (fun a => (lexCombs m (a + 1) 0).map (a :: ·))).length = m - lo
      rw [List.length_flatMap]
      rw [show (List.range' lo (m - lo)).map
          (List.length ∘ fun a => (lexCombs m (a + 1) 0).map (a :: ·))
          = (List.range' lo (m - lo)).map (fun _ => 1) from
        List.map_congr_left (fun a _ => rfl)]
      rw [List.map_const', List.sum_const_nat, List.length_range']
      omega
    rw [List.length_map, h1, List.length_range, List.length_nil]
  rw [h] at hlhs
  rw [hlhs] at hlen
  simp at hlen

/-- Witness for the amended C8 at the claim's concrete instance
`[1,2,3,4,5]` with `max_size 3`: the enumeration is as claimed, and it has
exactly `1 + 5 + 10 + 10 = 26` subsets. -/
theorem c8_subsets_amended_witness :
    C8Claim [1, 2, 3, 4, 5] 3
    ∧ (generateSubsets [1, 2, 3, 4, 5] 3).length = 26 :=
  ⟨c8_subsets_amended [1, 2, 3, 4, 5] 3 (by decide), by decide⟩


/-! ## The Vietoris-Rips complex against its specification -/

/-- All pairs of members of a list, each pair taken once, in order of
appearance. -/
def listPairs : List ℕ → List (ℕ × ℕ)
  | [] => []
  | a :: t => t.map (fun b => (a, b)) ++ listPairs t

/-- Specification-side diameter of a vertex subset, read off the claim: the
maximum pairwise distance among the members of the subset (`0` for a
singleton, which has no pairs). -/
def specDiam {α : Type} [LinearOrder α] [Zero α] (d : ℕ → ℕ → α) (s : List ℕ) : α :=
  (((listPairs s).map (fun p => d p.1 p.2)).max?).getD 0

theorem flatMap_single {γ δ : Type} (g : γ → δ) :
    ∀ l : List γ, l.flatMap (fun a => [g a]) = l.map g := by
  intro l
  induction l with
  | nil => rfl
  | cons a t ih =>
    rw [List.flatMap_cons, ih]
    rfl

theorem flatMap_congr {γ δ : Type} : ∀ (l : List γ) (f g : γ → List δ),
    (∀ a ∈ l, f a = g a) → l.flatMap f = l.flatMap g := by
  intro l
  induction l with
  | nil => intro f g _; rfl
  | cons a t ih =>
    intro f g h
    rw [List.flatMap_cons, List.flatMap_cons, h a (List.mem_cons_self a t),
      ih f g (fun x hx => h x (List.mem_cons_of_mem a hx))]

theorem flatMap_map {γ δ ε : Type} (f : γ → δ) (g : δ → List ε) :
    ∀ l : List γ, (l.map f).flatMap g = l.flatMap (fun a => g (f a)) := by
  intro l
  induction l with
  | nil => rfl
  | cons a t ih => rw [List.map_cons, List.flatMap_cons, List.flatMap_cons, ih]

theorem map_flatMap {γ δ ε : Type} (g : γ → List δ) (f : δ → ε) :
    ∀ l : List γ, (l.flatMap g).map f = l.flatMap (fun a => (g a).map f) := by
  intro l
  induction l with
  | nil => rfl
  | cons a t ih => rw [List.flatMap_cons, List.flatMap_cons, List.map_append, ih]

theorem lexCombs_one (n lo : ℕ) :
    lexCombs n lo 1 = (List.range' lo (n - lo)).map (fun a => [a]) := by
  show (List.range' lo (n - lo)).flatMap _ = _
  exact flatMap_single (fun a => [a]) _

theorem range'_shift : ∀ (c lo : ℕ),
    List.range' (lo + 1) c = (List.range' lo c).map (fun x => x + 1) := by
  intro c
  induction c with
  | zero => intro lo; rfl
  | succ c ih =>
    intro lo
    rw [List.range'_succ, List.range'_succ, List.map_cons, ih (lo + 1)]

theorem lexCombs_shift (n : ℕ) : ∀ (k lo : ℕ),
    lexCombs (n + 1) (lo + 1) k = (lexCombs n lo k).map (List.map (fun x => x + 1)) := by
  intro k
  induction k with
  | zero => intro lo; rfl
  | succ k ih =>
    intro lo
    show (List.range' (lo + 1) (n + 1 - (lo + 1))).flatMap
        (fun a => (lexCombs (n + 1) (a + 1) k).map (a :: ·))
      = ((List.range' lo (n - lo)).flatMap
        (fun a => (lexCombs n (a + 1) k).map (a :: ·))).map (List.map (fun x => x + 1))
    rw [show n + 1 - (lo + 1) = n - lo from by omega]
    rw [range'_shift (n - lo) lo, flatMap_map, map_flatMap]
    apply flatMap_congr
    intro a _
    rw [ih (a + 1), List.map_map, List.map_map]
    apply List.map_congr_left
    intro q _
    rfl

theorem range_map_getD {γ : Type} (g : ℕ → γ) : ∀ t : List ℕ,
    (List.range t.length).map (fun i => g (t.getD i 0)) = t.map g := by
  intro t
  induction t with
  | nil => rfl
  | cons b u ih =>
    show (List.range (u.length + 1)).map _ = _
    rw [List.range_succ_eq_map, List.map_cons, List.map_map]
    rw [show ((fun i => g ((b :: u).getD i 0)) ∘ Nat.succ) = (fun i => g (u.getD i 0)) from
      funext (fun i => rfl)]
    rw [ih]
    rfl

theorem eq_single_of_length_one {q : List ℕ} (h : q.length = 1) : ∃ i, q = [i] := by
  cases q with
  | nil =>
    exfalso
    simp only [List.length_nil] at h
    omega
  | cons i r =>
    cases r with
    | nil => exact ⟨i, rfl⟩
    | cons j r2 =>
      exfalso
      simp only [List.length_cons] at h
      omega

theorem eq_pair_of_length_two {q : List ℕ} (h : q.length = 2) : ∃ i j, q = [i, j] := by
  cases q with
  | nil =>
    exfalso
    simp only [List.length_nil] at h
    omega
  | cons i r =>
    cases r with
    | nil =>
      exfalso
      simp only [List.length_cons, List.length_nil] at h
      omega
    | cons j r2 =>
      cases r2 with
      | nil => exact ⟨i, j, rfl⟩
      | cons x r3 =>
        exfalso
        simp only [List.length_cons] at h
        omega

theorem lexCombs_single_getD {γ : Type} (g : ℕ → γ) (t : List ℕ) :
    (lexCombs t.length 0 1).map (fun q => g (t.getD (q.getD 0 0) 0)) = t.map g := by
  rw [lexCombs_one t.length 0, Nat.sub_zero, ← List.range_eq_range', List.map_map]
  exact range_map_getD g t

theorem lexCombs_pairs_blockA {γ : Type} (g : ℕ → ℕ → γ) (a : ℕ) (t : List ℕ) :
    (((lexCombs (t.length + 1) 1 1).map (fun q => 0 :: q)).map
        (fun q => g ((a :: t).getD (q.getD 0 0) 0) ((a :: t).getD (q.getD 1 0) 0)))
      = t.map (fun b => g a b) := by
  have h1 : lexCombs (t.length + 1) 1 1
      = (lexCombs t.length 0 1).map (List.map (fun x => x + 1)) :=
    lexCombs_shift t.length 1 0
  rw [h1, List.map_map, List.map_map]
  refine Eq.trans (List.map_congr_left ?_) (lexCombs_single_getD (fun b => g a b) t)
  intro q hq
  obtain ⟨hlen1, -, -⟩ := (mem_lexCombs t.length 1 0 q).mp hq
  obtain ⟨i, rfl⟩ := eq_single_of_length_one hlen1
  rfl

theorem lexCombs_pairs_blockB {γ : Type} (g : ℕ → ℕ → γ) (a : ℕ) (t : List ℕ)
    (ih : (lexCombs t.length 0 2).map
        (fun q => g (t.getD (q.getD 0 0) 0) (t.getD (q.getD 1 0) 0))
      = (listPairs t).map (fun p => g p.1 p.2)) :
    (lexCombs (t.length + 1) 1 2).map
        (fun q => g ((a :: t).getD (q.getD 0 0) 0) ((a :: t).getD (q.getD 1 0) 0))
      = (listPairs t).map (fun p => g p.1 p.2) := by
  have h1 : lexCombs (t.length + 1) 1 2
      = (lexCombs t.length 0 2).map (List.map (fun x => x + 1)) :=
    lexCombs_shift t.length 2 0
  rw [h1, List.map_map]
  refine Eq.trans (List.map_congr_left ?_) ih
  intro q hq
  obtain ⟨hlen2, -, -⟩ := (mem_lexCombs t.length 2 0 q).mp hq
  obtain ⟨i, j, rfl⟩ := eq_pair_of_length_two hlen2
  rfl

/-- The size-2 combinations of the positions of `s`, read through `s`, are
exactly the member pairs of `s`. -/
theorem lexCombs_pairs {γ : Type} (g : ℕ → ℕ → γ) : ∀ s : List ℕ,
    (lexCombs s.length 0 2).map
        (fun q => g (s.getD (q.getD 0 0) 0) (s.getD (q.getD 1 0) 0))
      = (listPairs s).map (fun p => g p.1 p.2) := by
  intro s
  induction s with
  | nil => rfl
  | cons a t ih =>
    have hunf := lexCombs_unfold (t.length + 1) 0 1 (by omega)
    rw [show (0 : ℕ) + 1 = 1 from rfl, show (1 : ℕ) + 1 = 2 from rfl] at hunf
    show (lexCombs (t.length + 1) 0 2).map
        (fun q => g ((a :: t).getD (q.getD 0 0) 0) ((a :: t).getD (q.getD 1 0) 0))
      = (listPairs (a :: t)).map (fun p => g p.1 p.2)
    rw [hunf, List.map_append]
    rw [show listPairs (a :: t) = t.map (fun b => (a, b)) ++ listPairs t from rfl,
      List.map_append]
    congr 1
    · refine Eq.trans (lexCombs_pairs_blockA g a t) ?_
      rw [List.map_map]
      exact List.map_congr_left (fun b _ => rfl)
    · exact lexCombs_pairs_blockB g a t ih

/-- Keeping only the length-2 subsets drops the sentinel empty subset and the
singletons, so nothing of the `[] :: sizes 1, 2` structure survives except
the pair block. -/
theorem filter_cons_nil_len2 (L : List (List ℕ)) :
    (([] : List ℕ) :: L).filter (fun p => p.length = 2)
      = L.filter (fun p => p.length = 2) := rfl

/-- The diameter loop of `vietoris_rips_complex` computes the
specification's diameter, provided the subset is small enough that the
inner `generate_subsets(subset, 2)` call does not trip the combination
guard. -/
theorem subsetDiameter_eq_specDiam {α : Type} [LinearOrder α] [Zero α]
    (d : ℕ → ℕ → α) (s : List ℕ)
    (h1 : binomFold s.length 1 ≤ 10000000)
    (h2 : binomFold s.length 2 ≤ 10000000) :
    subsetDiameter d s = specDiam d s := by
  unfold subsetDiameter specDiam
  by_cases hL : s.length = 1
  · rw [if_pos hL]
    obtain ⟨x, rfl⟩ := eq_single_of_length_one hL
    rfl
  · rw [if_neg hL]
    rcases Nat.lt_or_ge s.length 2 with hlt2 | hge2
    · obtain rfl : s = [] := by
        cases s with
        | nil => rfl
        | cons x r =>
          exfalso
          simp only [List.length_cons] at hL hlt2
          omega
      rfl
    · have hgg : ∀ j, 1 ≤ j → j < 1 + 2 →
          j ≤ s.length ∧ binomFold s.length j ≤ 10000000 := by
        intro j hj1 hj2
        have hj : j = 1 ∨ j = 2 := by omega
        rcases hj with rfl | rfl
        · exact ⟨by omega, h1⟩
        · exact ⟨hge2, h2⟩
      have hgs : generateSubsets s 2
          = [] :: ((lexCombs s.length 0 1).map (List.map (fun i => s.getD i 0))
              ++ (lexCombs s.length 0 2).map (List.map (fun i => s.getD i 0))) := by
        unfold generateSubsets
        rw [show min 2 s.length = 2 from by omega]
        rw [subsetsGo_ok s 2 1 hgg]
        rw [show List.range' 1 2 = [1, 2] from rfl]
        simp only [List.flatMap_cons, List.flatMap_nil, List.append_nil]
      have hf1 : ((lexCombs s.length 0 1).map (List.map (fun i => s.getD i 0))).filter
          (fun p => p.length = 2) = [] := by
        rw [List.filter_eq_nil_iff]
        intro q hq
        rw [List.mem_map] at hq
        obtain ⟨q0, hq0, rfl⟩ := hq
        obtain ⟨hl, -, -⟩ := (mem_lexCombs s.length 1 0 q0).mp hq0
        simp only [List.length_map, hl, decide_eq_true_eq]
        omega
      have hf2 : ((lexCombs s.length 0 2).map (List.map (fun i => s.getD i 0))).filter
          (fun p => p.length = 2)
          = (lexCombs s.length 0 2).map (List.map (fun i => s.getD i 0)) := by
        rw [List.filter_eq_self]
        intro q hq
        rw [List.mem_map] at hq
        obtain ⟨q0, hq0, rfl⟩ := hq
        obtain ⟨hl, -, -⟩ := (mem_lexCombs s.length 2 0 q0).mp hq0
        simp only [List.length_map, decide_eq_true_eq]
        exact hl
      have hpt : ∀ q ∈ lexCombs s.length 0 2,
          ((fun p => d (p.getD 0 0) (p.getD 1 0)) ∘ List.map (fun i => s.getD i 0)) q
            = d (s.getD (q.getD 0 0) 0) (s.getD (q.getD 1 0) 0) := by
        intro q hq
        obtain ⟨hl, -, -⟩ := (mem_lexCombs s.length 2 0 q).mp hq
        obtain ⟨i, j, rfl⟩ := eq_pair_of_length_two hl
        rfl
      rw [hgs, filter_cons_nil_len2, List.filter_append, hf1, hf2, List.nil_append,
        List.map_map, List.map_congr_left hpt, lexCombs_pairs d s]

theorem getD_range {n x : ℕ} (h : x < n) : (List.range n).getD x 0 = x := by
  rw [List.getD_eq_getElem?_getD, List.getElem?_range h]
  rfl

theorem map_getD_range {n : ℕ} : ∀ {l : List ℕ}, (∀ x ∈ l, x < n) →
    l.map (fun i => (List.range n).getD i 0) = l := by
  intro l
  induction l with
  | nil => intro _; rfl
  | cons a t ih =>
    intro h
    rw [List.map_cons, ih (fun x hx => h x (List.mem_cons_of_mem a hx)),
      getD_range (h a (List.mem_cons_self a t))]

/-- Under the combination guard, `generate_subsets` over the point indices
`0..n` is the plain lexicographic enumeration of the index subsets. -/
theorem generateSubsets_range (n m : ℕ)
    (hg : ∀ k ∈ List.range' 1 (min m n), binomFold n k ≤ 10000000) :
    generateSubsets (List.range n) m
      = [] :: (List.range' 1 (min m n)).flatMap (fun k => lexCombs n 0 k) := by
  have hh : ∀ j, 1 ≤ j → j < 1 + min m n →
      j ≤ (List.range n).length ∧ binomFold (List.range n).length j ≤ 10000000 := by
    intro j hj1 hj2
    rw [List.length_range]
    refine ⟨by omega, hg j ?_⟩
    rw [List.mem_range'_1]
    omega
  unfold generateSubsets
  rw [List.length_range]
  rw [subsetsGo_ok (List.range n) (min m n) 1 hh]
  rw [List.length_range]
  congr 1
  apply flatMap_congr
  intro k _
  refine Eq.trans (List.map_congr_left ?_) (List.map_id _)
  intro c hc
  obtain ⟨-, -, hb⟩ := (mem_lexCombs n k 0 c).mp hc
  exact map_getD_range (fun x hx => (hb x hx).2)

theorem zip_fst_snd {A B : Type} : ∀ l : List (A × B),
    (l.map Prod.fst).zip (l.map Prod.snd) = l := by
  intro l
  induction l with
  | nil => rfl
  | cons p t ih => rw [List.map_cons, List.map_cons, List.zip_cons_cons, ih]

/-- C2, the claim as stated: `InvalidDimension` iff `max_dimension ≥ n`;
otherwise the complex holds a simplex for exactly the non-empty subsets of
the point indices of size at most `max_dimension + 1` whose diameter is
within the threshold, each with the diameter as its filtration level. -/
def C2Claim {α : Type} [LinearOrder α] [Zero α] (n : ℕ) (d : ℕ → ℕ → α)
    (maxDim : ℕ) (threshold : α) : Prop :=
  (n ≤ maxDim → vietorisRips n d maxDim threshold = .error .InvalidDimension)
  ∧ (maxDim < n → ∃ c, vietorisRips n d maxDim threshold = .ok c
      ∧ (∀ p ∈ c.simplices.zip c.levels, p.2 = specDiam d p.1.vertices)
      ∧ (∀ v : List ℕ, v.Pairwise (· < ·) →
          (Simplex.mk v ∈ c.simplices
            ↔ v ≠ [] ∧ v.length ≤ maxDim + 1 ∧ (∀ x ∈ v, x < n)
              ∧ specDiam d v ≤ threshold)))

/-- C2 (amended): `vietoris_rips_complex` rejects `max_dimension ≥ n` with
`InvalidDimension`; otherwise — provided no subset size up to
`max_dimension + 1` trips the 10,000,000-combination guard — the complex
holds a simplex for exactly the non-empty subsets of the point indices of
size at most `max_dimension + 1` whose diameter is at most the threshold,
each stored with its diameter as filtration level.  (The unamended claim
fails because the guard silently truncates the subset enumeration.) -/
theorem c2_vietoris_rips_amended {α : Type} [LinearOrder α] [Zero α]
    (n : ℕ) (d : ℕ → ℕ → α) (maxDim : ℕ) (threshold : α)
    (hguard : ∀ k ∈ List.range' 1 (min (maxDim + 1) n), binomFold n k ≤ 10000000) :
    C2Claim n d maxDim threshold := by
  constructor
  · intro hge
    unfold vietorisRips
    rw [if_pos (by omega)]
  · intro hlt
    have hmin : min (maxDim + 1) n = maxDim + 1 := by omega
    rw [hmin] at hguard
    have hn1 : n ≤ 10000000 := by
      have h := hguard 1 (by rw [List.mem_range'_1]; omega)
      rwa [binomFold_eq_choose (by omega), Nat.choose_one_right] at h
    have hdiam : ∀ v : List ℕ, v.Pairwise (· < ·) → (∀ x ∈ v, x < n) →
        v.length ≤ maxDim + 1 → subsetDiameter d v = specDiam d v := by
      intro v hpw hb hlenM
      have hvn : v.length ≤ n := by
        have := head_add_length_le n v hpw hb
        omega
      apply subsetDiameter_eq_specDiam
      · rcases Nat.eq_zero_or_pos v.length with h0 | h0
        · rw [h0]; decide
        · rw [binomFold_eq_choose h0, Nat.choose_one_right]; omega
      · rcases Nat.lt_or_ge v.length 2 with h2 | h2
        · have hv01 : v.length = 0 ∨ v.length = 1 := by omega
          rcases hv01 with h | h <;> rw [h] <;> decide
        · have hn2 : binomFold n 2 ≤ 10000000 :=
            hguard 2 (by rw [List.mem_range'_1]; omega)
          rw [binomFold_eq_choose h2]
          rw [binomFold_eq_choose (by omega : 2 ≤ n)] at hn2
          exact le_trans (Nat.choose_le_choose 2 hvn) hn2
    have hsubs : generateSubsets (List.range n) (maxDim + 1)
        = [] :: (List.range' 1 (maxDim + 1)).flatMap (fun k => lexCombs n 0 k) := by
      have h := generateSubsets_range n (maxDim + 1) (by rw [hmin]; exact hguard)
      rwa [hmin] at h
    have hmemE : ∀ v : List ℕ,
        v ∈ (List.range' 1 (maxDim + 1)).flatMap (fun k => lexCombs n 0 k)
          ↔ v ≠ [] ∧ v.length ≤ maxDim + 1 ∧ v.Pairwise (· < ·) ∧ ∀ x ∈ v, x < n := by
      intro v
      rw [List.mem_flatMap]
      constructor
      · rintro ⟨k, hk, hv⟩
        rw [List.mem_range'_1] at hk
        obtain ⟨hl, hpw, hb⟩ := (mem_lexCombs n k 0 v).mp hv
        refine ⟨?_, by omega, hpw, fun x hx => (hb x hx).2⟩
        intro hnil
        rw [hnil] at hl
        simp only [List.length_nil] at hl
        omega
      · rintro ⟨hne, hle, hpw, hb⟩
        have hpos : 0 < v.length := List.length_pos.mpr hne
        refine ⟨v.length, ?_, (mem_lexCombs n v.length 0 v).mpr
          ⟨rfl, hpw, fun x hx => ⟨Nat.zero_le x, hb x hx⟩⟩⟩
        rw [List.mem_range'_1]
        omega
    have hnew : ∀ v : List ℕ, v.Pairwise (· < ·) → Simplex.new v = ⟨v⟩ := by
      intro v hpw
      unfold Simplex.new
      congr 1
      exact List.Sorted.insertionSort_eq (hpw.imp le_of_lt)
    have hvalid : ∀ v : List ℕ, v ≠ [] → v.Pairwise (· < ·) →
        Simplex.valid ⟨v⟩ = true := by
      intro v hne hpw
      have hnd : v.Nodup := hpw.imp (fun h => ne_of_lt h)
      cases v with
      | nil => exact absurd rfl hne
      | cons a u =>
        show decide ((a :: u).Nodup) = true
        exact decide_eq_true hnd
    obtain ⟨acc, hacc⟩ : ∃ acc : List (Simplex × α),
        acc = (([] : List ℕ) :: (List.range' 1 (maxDim + 1)).flatMap
              (fun k => lexCombs n 0 k)).filterMap
            (fun subset =>
              if subset.isEmpty then none
              else if subsetDiameter d subset ≤ threshold then
                some (Simplex.new subset, subsetDiameter d subset) else none) :=
      ⟨_, rfl⟩
    have haccMem : ∀ p : Simplex × α, p ∈ acc
          ↔ ∃ v : List ℕ, (v ≠ [] ∧ v.length ≤ maxDim + 1 ∧ v.Pairwise (· < ·)
              ∧ (∀ x ∈ v, x < n))
            ∧ specDiam d v ≤ threshold ∧ p = (⟨v⟩, specDiam d v) := by
      intro p
      rw [hacc, List.mem_filterMap]
      constructor
      · rintro ⟨v, hv, hF⟩
        rcases List.mem_cons.mp hv with rfl | hvE
        · exact absurd hF (fun h => Option.noConfusion h)
        · obtain ⟨hne, hle, hpw, hb⟩ := (hmemE v).mp hvE
          have hie : v.isEmpty = false := by
            cases v with
            | nil => exact absurd rfl hne
            | cons x u => rfl
          rw [hie] at hF
          rw [if_neg (by simp)] at hF
          by_cases hth : subsetDiameter d v ≤ threshold
          · rw [if_pos hth] at hF
            have hp := (Option.some.inj hF).symm
            rw [hnew v hpw, hdiam v hpw hb hle] at hp
            refine ⟨v, ⟨hne, hle, hpw, hb⟩, ?_, hp⟩
            rw [← hdiam v hpw hb hle]
            exact hth
          · rw [if_neg hth] at hF
            exact absurd hF (fun h => Option.noConfusion h)
      · rintro ⟨v, ⟨hne, hle, hpw, hb⟩, hth, rfl⟩
        refine ⟨v, List.mem_cons_of_mem _ ((hmemE v).mpr ⟨hne, hle, hpw, hb⟩), ?_⟩
        have hie : v.isEmpty = false := by
          cases v with
          | nil => exact absurd rfl hne
          | cons x u => rfl
        rw [hie]
        rw [if_neg (by simp)]
        rw [if_pos (by rw [hdiam v hpw hb hle]; exact hth)]
        rw [hnew v hpw, hdiam v hpw hb hle]
    unfold vietorisRips
    rw [if_neg (by omega)]
    dsimp only
    rw [hsubs, ← hacc]
    have hall : (acc.map Prod.fst).all Simplex.valid = true := by
      rw [List.all_eq_true]
      intro q hq
      rw [List.mem_map] at hq
      obtain ⟨p, hp, rfl⟩ := hq
      obtain ⟨v, ⟨hne, -, hpw, -⟩, -, rfl⟩ := (haccMem p).mp hp
      exact hvalid v hne hpw
    have hokC : mkComplex (acc.map Prod.fst) (acc.map Prod.snd)
        = .ok ⟨(List.insertionSort levelLe acc).map Prod.fst,
               (List.insertionSort levelLe acc).map Prod.snd,
               buildIndexes ((List.insertionSort levelLe acc).map Prod.fst)⟩ := by
      unfold mkComplex
      rw [if_neg (by rw [List.length_map, List.length_map]; exact fun h => h rfl),
        if_neg (not_not_intro hall)]
      dsimp only
      rw [zip_fst_snd]
    refine ⟨⟨(List.insertionSort levelLe acc).map Prod.fst,
             (List.insertionSort levelLe acc).map Prod.snd,
             buildIndexes ((List.insertionSort levelLe acc).map Prod.fst)⟩, ?_, ?_, ?_⟩
    · rw [hokC]
      rfl
    · intro p hp
      dsimp only at hp
      rw [zip_fst_snd] at hp
      have hpAcc := ((List.perm_insertionSort levelLe acc).mem_iff).mp hp
      obtain ⟨v, -, -, rfl⟩ := (haccMem p).mp hpAcc
      rfl
    · intro v hpw
      dsimp only
      constructor
      · intro hmem
        have hmem' := (((List.perm_insertionSort levelLe acc).map Prod.fst).mem_iff).mp hmem
        rw [List.mem_map] at hmem'
        obtain ⟨p, hpAcc, hfst⟩ := hmem'
        obtain ⟨w, ⟨hne, hle, hpwW, hb⟩, hth, rfl⟩ := (haccMem p).mp hpAcc
        have hwv : w = v := congrArg Simplex.vertices hfst
        subst hwv
        exact ⟨hne, hle, hb, hth⟩
      · rintro ⟨hne, hle, hb, hth⟩
        apply (((List.perm_insertionSort levelLe acc).map Prod.fst).mem_iff).mpr
        rw [List.mem_map]
        exact ⟨(⟨v⟩, specDiam d v), (haccMem _).mpr ⟨v, ⟨hne, hle, hpw, hb⟩, hth, rfl⟩, rfl⟩

theorem generateSubsets_guard_break :
    generateSubsets (List.range 10000001) 1 = [[]] := by
  have herr : generateCombinations (List.range 10000001) 1
      = .error (.TooLarge (binomFold 10000001 1)) := by
    unfold generateCombinations Combinations.new
    rw [List.length_range]
    rw [if_neg (by omega), if_pos (by decide)]
    rfl
  unfold generateSubsets
  rw [show min 1 (List.range 10000001).length = 1 by
    rw [List.length_range]; omega]
  rw [subsetsGo_one, herr]

theorem vietorisRips_guard_break :
    vietorisRips 10000001 (fun _ _ => (0 : ℚ)) 0 0
      = .ok ⟨[], [], buildIndexes []⟩ := by
  unfold vietorisRips
  rw [if_neg (by omega)]
  dsimp only
  rw [generateSubsets_guard_break]
  rfl

/-- C2 counterexample: with 10,000,001 points at pairwise distance 0 and
`max_dimension = 0`, even the vertex enumeration trips the combination
guard, so the returned complex is empty although the claim demands a vertex
simplex `[0]` (its diameter 0 is within the threshold). -/
theorem c2_vietoris_rips_counterexample :
    ¬ C2Claim 10000001 (fun _ _ => (0 : ℚ)) 0 0 := by
  intro h
  obtain ⟨c, hc, -, hmem⟩ := h.2 (by omega)
  rw [vietorisRips_guard_break] at hc
  obtain rfl := Except.ok.inj hc
  have h0 := (hmem [0] (by simp)).mpr
    ⟨by simp, by simp, by intro x hx; rw [List.mem_singleton] at hx; omega, le_of_eq rfl⟩
  exact absurd h0 (by simp)

/-- Witness for the amended C2 at the triangle scenario (3 points, squared
distances, `max_dimension 2`, threshold 100): the guard passes and the
claimed characterisation holds. -/
theorem c2_vietoris_rips_amended_witness :
    (∀ k ∈ List.range' 1 (min (2 + 1) 3), binomFold 3 k ≤ 10000000)
    ∧ C2Claim 3 dTriangleN 2 100 :=
  ⟨by decide, c2_vietoris_rips_amended 3 dTriangleN 2 100 (by decide)⟩


/-! ## `SimplicialComplex::new` against its specification -/

instance {α : Type} [LinearOrder α] : IsTotal (Simplex × α) levelLe :=
  ⟨fun a b => le_total a.2 b.2⟩

instance {α : Type} [LinearOrder α] : IsTrans (Simplex × α) levelLe :=
  ⟨fun _ _ _ hab hbc => le_trans hab hbc⟩

/-- Appending one simplex to the index-map fold: the new entry shadows any
earlier entry for the same simplex (a Rust `HashMap` built by `collect`
keeps the last value inserted for a repeated key). -/
theorem buildIndexes_append (l : List Simplex) (x : Simplex) :
    buildIndexes (l ++ [x])
      = fun q => if q = x then some l.length else buildIndexes l q := by
  unfold buildIndexes
  rw [List.enum_append, List.foldl_append]
  rfl

/-- The index map sends a simplex to the last position holding it in the
sorted order, and is `none` off the list. -/
theorem buildIndexes_spec : ∀ (l : List Simplex) (s : Simplex) (j : ℕ),
    buildIndexes l s = some j
      ↔ j < l.length ∧ l.getD j ⟨[]⟩ = s
        ∧ ∀ r, j < r → r < l.length → l.getD r ⟨[]⟩ ≠ s := by
  intro l
  induction l using List.reverseRecOn with
  | nil =>
    intro s j
    constructor
    · intro h
      exact absurd h (fun hh => Option.noConfusion hh)
    · rintro ⟨hj, -, -⟩
      simp only [List.length_nil] at hj
      omega
  | append_singleton l x ih =>
    intro s j
    rw [buildIndexes_append]
    show (if s = x then some l.length else buildIndexes l s) = some j
      ↔ j < (l ++ [x]).length ∧ (l ++ [x]).getD j ⟨[]⟩ = s
        ∧ ∀ r, j < r → r < (l ++ [x]).length → (l ++ [x]).getD r ⟨[]⟩ ≠ s
    by_cases hsx : s = x
    · rw [if_pos hsx]
      constructor
      · intro h
        obtain rfl := Option.some.inj h
        refine ⟨?_, ?_, ?_⟩
        · simp only [List.length_append, List.length_cons, List.length_nil]
          omega
        · rw [List.getD_append_right l [x] ⟨[]⟩ l.length le_rfl, Nat.sub_self]
          exact hsx.symm
        · intro r hr hrlen
          simp only [List.length_append, List.length_cons, List.length_nil] at hrlen
          omega
      · rintro ⟨hj, hgd, hlast⟩
        by_cases hjl : j = l.length
        · rw [hjl]
        · exfalso
          have hjlt : j < l.length := by
            simp only [List.length_append, List.length_cons, List.length_nil] at hj
            omega
          refine hlast l.length hjlt (by
            simp only [List.length_append, List.length_cons, List.length_nil]
            omega) ?_
          rw [List.getD_append_right l [x] ⟨[]⟩ l.length le_rfl, Nat.sub_self]
          exact hsx.symm
    · rw [if_neg hsx, ih s j]
      constructor
      · rintro ⟨hj, hgd, hlast⟩
        refine ⟨?_, ?_, ?_⟩
        · simp only [List.length_append, List.length_cons, List.length_nil]
          omega
        · rw [List.getD_append l [x] ⟨[]⟩ j hj]
          exact hgd
        · intro r hr hrlen
          rcases Nat.lt_or_ge r l.length with hrl | hrl
          · rw [List.getD_append l [x] ⟨[]⟩ r hrl]
            exact hlast r hr hrl
          · have hreq : r = l.length := by
              simp only [List.length_append, List.length_cons, List.length_nil] at hrlen
              omega
            rw [List.getD_append_right l [x] ⟨[]⟩ r hrl, hreq, Nat.sub_self]
            exact fun hh => hsx hh.symm
      · rintro ⟨hj, hgd, hlast⟩
        have hjl : j < l.length := by
          rcases Nat.lt_or_ge j l.length with h | h
          · exact h
          · exfalso
            have hj1 : j = l.length := by
              simp only [List.length_append, List.length_cons, List.length_nil] at hj
              omega
            rw [hj1, List.getD_append_right l [x] ⟨[]⟩ l.length le_rfl, Nat.sub_self] at hgd
            exact hsx hgd.symm
        refine ⟨hjl, ?_, ?_⟩
        · rw [List.getD_append l [x] ⟨[]⟩ j hjl] at hgd
          exact hgd
        · intro r hr hrl
          have hres := hlast r hr (by
            simp only [List.length_append, List.length_cons, List.length_nil]
            omega)
          rw [List.getD_append l [x] ⟨[]⟩ r hrl] at hres
          exact hres

/-- Inserting a pair whose level is in the filtered class puts it at the
front of the class: all elements skipped by `orderedInsert` have strictly
smaller levels. -/
theorem filter_orderedInsert_pos {α : Type} [LinearOrder α] (lv : α) (a : Simplex × α)
    (h : a.2 = lv) : ∀ L : List (Simplex × α),
    (List.orderedInsert levelLe a L).filter (fun p => p.2 = lv)
      = a :: L.filter (fun p => p.2 = lv) := by
  intro L
  induction L with
  | nil =>
    show [a].filter (fun p => p.2 = lv) = [a]
    rw [List.filter_cons_of_pos (by simpa using h)]
    rfl
  | cons b L ih =>
    show (if levelLe a b then a :: b :: L else b :: List.orderedInsert levelLe a L).filter
        (fun p => p.2 = lv) = a :: (b :: L).filter (fun p => p.2 = lv)
    by_cases hab : levelLe a b
    · rw [if_pos hab, List.filter_cons_of_pos (by simpa using h)]
    · rw [if_neg hab]
      have hb : ¬ b.2 = lv := by
        intro hblv
        exact hab (le_of_eq (h.trans hblv.symm))
      rw [List.filter_cons_of_neg (by simpa using hb), ih,
        List.filter_cons_of_neg (by simpa using hb)]

/-- Inserting a pair whose level is outside the filtered class leaves the
class untouched. -/
theorem filter_orderedInsert_neg {α : Type} [LinearOrder α] (lv : α) (a : Simplex × α)
    (h : ¬ a.2 = lv) : ∀ L : List (Simplex × α),
    (List.orderedInsert levelLe a L).filter (fun p => p.2 = lv)
      = L.filter (fun p => p.2 = lv) := by
  intro L
  induction L with
  | nil =>
    show [a].filter (fun p => p.2 = lv) = []
    rw [List.filter_cons_of_neg (by simpa using h)]
    rfl
  | cons b L ih =>
    show (if levelLe a b then a :: b :: L else b :: List.orderedInsert levelLe a L).filter
        (fun p => p.2 = lv) = (b :: L).filter (fun p => p.2 = lv)
    by_cases hab : levelLe a b
    · rw [if_pos hab, List.filter_cons_of_neg (by simpa using h)]
    · rw [if_neg hab]
      by_cases hb : b.2 = lv
      · rw [List.filter_cons_of_pos (by simpa using hb), ih,
          List.filter_cons_of_pos (by simpa using hb)]
      · rw [List.filter_cons_of_neg (by simpa using hb), ih,
          List.filter_cons_of_neg (by simpa using hb)]

/-- The sort performed by `SimplicialComplex::new` is stable: each level
class of the sorted pair list is the level class of the input, in input
order. -/
theorem filter_insertionSort {α : Type} [LinearOrder α] (lv : α) :
    ∀ L : List (Simplex × α),
    (List.insertionSort levelLe L).filter (fun p => p.2 = lv)
      = L.filter (fun p => p.2 = lv) := by
  intro L
  induction L with
  | nil => rfl
  | cons a L ih =>
    show (List.orderedInsert levelLe a (List.insertionSort levelLe L)).filter
        (fun p => p.2 = lv) = (a :: L).filter (fun p => p.2 = lv)
    by_cases h : a.2 = lv
    · rw [filter_orderedInsert_pos lv a h, ih, List.filter_cons_of_pos (by simpa using h)]
    · rw [filter_orderedInsert_neg lv a h, ih, List.filter_cons_of_neg (by simpa using h)]

/-- C3, the claim as stated: `LengthMismatch` on mismatched lengths,
`InvalidSimplex` on an invalid simplex, and on success the stored pairs are
the stably level-sorted input pairs with the index map sending each stored
simplex to its position. -/
def C3Claim {α : Type} [LinearOrder α] (ss : List Simplex) (ls : List α) : Prop :=
  (ss.length ≠ ls.length → mkComplex ss ls = .error (.LengthMismatch ss.length ls.length))
  ∧ (ss.length = ls.length → ¬ ss.all Simplex.valid = true →
      mkComplex ss ls = .error .InvalidSimplex)
  ∧ (∀ c, mkComplex ss ls = .ok c →
      List.Sorted levelLe (c.simplices.zip c.levels)
      ∧ (∀ lv : α, (c.simplices.zip c.levels).filter (fun p => p.2 = lv)
          = (ss.zip ls).filter (fun p => p.2 = lv))
      ∧ (∀ i, i < c.simplices.length →
          c.indexes (c.simplices.getD i ⟨[]⟩) = some i))

/-- C3 (amended): `SimplicialComplex::new` rejects mismatched lengths with
`LengthMismatch` and (given matching lengths) invalid simplices with
`InvalidSimplex`; on success the stored pairs are the input pairs stably
sorted ascending by level (sorted, with every level class preserved in
input order), but the simplex→index map sends a simplex to the LAST
position holding it — which is its position whenever the stored simplices
are distinct, recovering the claim, and refutes the claim when the same
simplex is stored twice. -/
theorem c3_simplicial_complex_amended {α : Type} [LinearOrder α]
    (ss : List Simplex) (ls : List α) :
    (ss.length ≠ ls.length → mkComplex ss ls = .error (.LengthMismatch ss.length ls.length))
    ∧ (ss.length = ls.length → ¬ ss.all Simplex.valid = true →
        mkComplex ss ls = .error .InvalidSimplex)
    ∧ (∀ c, mkComplex ss ls = .ok c →
        List.Sorted levelLe (c.simplices.zip c.levels)
        ∧ (∀ lv : α, (c.simplices.zip c.levels).filter (fun p => p.2 = lv)
            = (ss.zip ls).filter (fun p => p.2 = lv))
        ∧ (∀ (s : Simplex) (j : ℕ), c.indexes s = some j ↔
            j < c.simplices.length ∧ c.simplices.getD j ⟨[]⟩ = s
            ∧ ∀ r, j < r → r < c.simplices.length → c.simplices.getD r ⟨[]⟩ ≠ s)
        ∧ (c.simplices.Nodup →
            ∀ i, i < c.simplices.length →
              c.indexes (c.simplices.getD i ⟨[]⟩) = some i)) := by
  refine ⟨?_, ?_, ?_⟩
  · intro hne
    unfold mkComplex
    rw [if_pos hne]
  · intro heq hinv
    unfold mkComplex
    rw [if_neg (not_not_intro heq), if_pos hinv]
  · intro c hc
    unfold mkComplex at hc
    by_cases hlen : ss.length ≠ ls.length
    · rw [if_pos hlen] at hc
      exact absurd hc (fun h => Except.noConfusion h)
    · rw [if_neg hlen] at hc
      by_cases hval : ¬ ss.all Simplex.valid = true
      · rw [if_pos hval] at hc
        exact absurd hc (fun h => Except.noConfusion h)
      · rw [if_neg hval] at hc
        dsimp only at hc
        obtain rfl := Except.ok.inj hc
        refine ⟨?_, ?_, ?_, ?_⟩
        · dsimp only
          rw [zip_fst_snd]
          exact List.sorted_insertionSort levelLe (ss.zip ls)
        · intro lv
          dsimp only
          rw [zip_fst_snd]
          exact filter_insertionSort lv (ss.zip ls)
        · intro s j
          dsimp only
          exact buildIndexes_spec ((List.insertionSort levelLe (ss.zip ls)).map Prod.fst) s j
        · intro hnd i hi
          dsimp only at hnd hi ⊢
          rw [buildIndexes_spec]
          refine ⟨hi, rfl, ?_⟩
          intro r hir hr hcon
          rw [List.getD_eq_getElem _ _ hr, List.getD_eq_getElem _ _ hi] at hcon
          have := (List.Nodup.getElem_inj_iff hnd).mp hcon
          omega

/-- C3 counterexample: storing the same vertex simplex twice (both with
level 0) is accepted, but the index map then sends it to position 1, not to
position 0 as the claim's "each simplex to its position" requires. -/
theorem c3_simplicial_complex_counterexample :
    ¬ C3Claim [Simplex.mk [0], Simplex.mk [0]] [(0 : ℕ), 0] := by
  intro h
  have h3 := h.2.2 ⟨[Simplex.mk [0], Simplex.mk [0]], [0, 0],
    buildIndexes [Simplex.mk [0], Simplex.mk [0]]⟩ rfl
  have hidx := h3.2.2 0 (by decide)
  exact absurd hidx (by decide)

/-- Witness for the amended C3 on a concrete two-simplex input: the pairs
are sorted by level, the level-0 class is preserved, and with distinct
simplices the index map gives positions. -/
theorem c3_simplicial_complex_amended_witness :
    ∃ c : SimplicialComplex ℕ,
      mkComplex [Simplex.mk [1], Simplex.mk [0]] [1, 0] = .ok c
      ∧ List.Sorted levelLe (c.simplices.zip c.levels)
      ∧ ((c.simplices.zip c.levels).filter (fun p => p.2 = 0)
          = ([Simplex.mk [1], Simplex.mk [0]].zip [1, 0]).filter (fun p => p.2 = 0))
      ∧ c.indexes (c.simplices.getD 0 ⟨[]⟩) = some 0 := by
  have h := c3_simplicial_complex_amended [Simplex.mk [1], Simplex.mk [0]] [(1 : ℕ), 0]
  refine ⟨⟨[Simplex.mk [0], Simplex.mk [1]], [0, 1],
    buildIndexes [Simplex.mk [0], Simplex.mk [1]]⟩, rfl, ?_, ?_, ?_⟩
  · exact (h.2.2 _ rfl).1
  · exact (h.2.2 _ rfl).2.1 0
  · exact (h.2.2 _ rfl).2.2.2 (by decide) 0 (by decide)


/-! ## Conservation of intervals in the reduction pass -/

theorem reduceB_succ (coB : ℕ → Finset ℕ) (fuel : ℕ) (B : Finset ℕ) :
    reduceB coB (fuel + 1) B
      = if B = ∅ then B
        else if coB (B.max.unbot' 0) = ∅ then B
        else reduceB coB fuel (symmDiff B (coB (B.max.unbot' 0))) := rfl

/-- The echelon loop, given any fuel exceeding every member of the working
set: the result stays inside `M` (if the inputs do) and, when non-empty,
its maximal element is an unclaimed row.  Termination holds because each
XOR removes the current maximum and introduces only smaller rows. -/
theorem reduceB_spec (coB : ℕ → Finset ℕ) (M : Finset ℕ)
    (hco : ∀ b, coB b ≠ ∅ → b ∈ coB b ∧ (∀ x ∈ coB b, x ≤ b) ∧ coB b ⊆ M) :
    ∀ (fuel : ℕ) (B : Finset ℕ), B ⊆ M → (∀ x ∈ B, x < fuel) →
      reduceB coB fuel B ⊆ M
      ∧ (reduceB coB fuel B ≠ ∅ → coB ((reduceB coB fuel B).max.unbot' 0) = ∅) := by
  intro fuel
  induction fuel with
  | zero =>
    intro B hBM hBf
    have hB : B = ∅ := by
      rw [Finset.eq_empty_iff_forall_not_mem]
      intro x hx
      exact absurd (hBf x hx) (by omega)
    exact ⟨hBM, fun hne => absurd hB hne⟩
  | succ fuel ih =>
    intro B hBM hBf
    rw [reduceB_succ]
    by_cases hBe : B = ∅
    · rw [if_pos hBe]
      exact ⟨hBM, fun hne => absurd hBe hne⟩
    · rw [if_neg hBe]
      obtain ⟨m, hm⟩ := Finset.max_of_nonempty (Finset.nonempty_iff_ne_empty.mpr hBe)
      have hbv : B.max.unbot' 0 = m := by rw [hm]; rfl
      rw [hbv]
      by_cases hcoBb : coB m = ∅
      · rw [if_pos hcoBb]
        refine ⟨hBM, fun _ => ?_⟩
        rw [hbv]
        exact hcoBb
      · rw [if_neg hcoBb]
        obtain ⟨hmem, hle, hsub⟩ := hco m hcoBb
        have hmB : m ∈ B := Finset.mem_of_max hm
        have hmf : m < fuel + 1 := hBf m hmB
        apply ih
        · intro x hx
          rcases Finset.mem_symmDiff.mp hx with ⟨hxB, -⟩ | ⟨hxc, -⟩
          · exact hBM hxB
          · exact hsub hxc
        · intro x hx
          have hxm : x ≤ m ∧ x ≠ m := by
            rcases Finset.mem_symmDiff.mp hx with ⟨hxB, hxnc⟩ | ⟨hxc, hxnB⟩
            · exact ⟨Finset.le_max_of_eq hxB hm, fun hxe => hxnc (by rw [hxe]; exact hmem)⟩
            · exact ⟨hle x hxc, fun hxe => hxnB (by rw [hxe]; exact hmB)⟩
          omega

theorem stepMain_eq {α : Type} (C : ChainCplx α)
    (acc : RState × List (List (PInterval α))) (i : ℕ) :
    stepMain C acc i
      = if removePivotRows C acc.1 i = ∅ then
          ({ acc.1 with marked := insert i acc.1.marked }, acc.2)
        else
          ({ acc.1 with
              coB := Function.update acc.1.coB ((removePivotRows C acc.1 i).max.unbot' 0)
                (removePivotRows C acc.1 i) },
            acc.2.set (C.dim ((removePivotRows C acc.1 i).max.unbot' 0))
              (acc.2.getD (C.dim ((removePivotRows C acc.1 i).max.unbot' 0)) []
                ++ [⟨C.level ((removePivotRows C acc.1 i).max.unbot' 0),
                     (C.level i : WithTop α)⟩])) := rfl

theorem sum_map_length_set_append {β : Type} :
    ∀ (l : List (List β)) (d : ℕ) (x : β), d < l.length →
    ((l.set d (l.getD d [] ++ [x])).map List.length).sum
      = (l.map List.length).sum + 1 := by
  intro l
  induction l with
  | nil =>
    intro d x hd
    exact absurd hd (by simp)
  | cons h t ih =>
    intro d x hd
    cases d with
    | zero =>
      rw [List.getD_cons_zero, List.set_cons_zero, List.map_cons, List.map_cons,
        List.sum_cons, List.sum_cons, List.length_append]
      simp only [List.length_cons, List.length_nil]
      omega
    | succ d =>
      rw [List.getD_cons_succ, List.set_cons_succ, List.map_cons, List.map_cons,
        List.sum_cons, List.sum_cons, ih d x (by
          simp only [List.length_cons] at hd
          omega)]
      omega

/-- Loop invariant of the main reduction pass over the first `k` chains: the
marked set lives among the processed indices; every stored pivot column is
non-empty with its pivot as maximum, contained in the marked set; the
buckets keep their shape; and both the emitted-interval count and the
claimed-pivot count balance the marked count against `k`. -/
def EngineInv {α : Type} (C : ChainCplx α) (maxDim k : ℕ)
    (acc : RState × List (List (PInterval α))) : Prop :=
  acc.1.marked ⊆ Finset.range k
  ∧ (∀ b, acc.1.coB b ≠ ∅ →
      b ∈ acc.1.coB b ∧ (∀ x ∈ acc.1.coB b, x ≤ b) ∧ acc.1.coB b ⊆ acc.1.marked)
  ∧ acc.2.length = maxDim + 1
  ∧ (acc.2.map List.length).sum + acc.1.marked.card = k
  ∧ ((Finset.range k).filter (fun b => acc.1.coB b ≠ ∅)).card + acc.1.marked.card = k

theorem stepMain_inv {α : Type} (C : ChainCplx α) (maxDim k : ℕ)
    (acc : RState × List (List (PInterval α)))
    (hk : k < C.n)
    (hdim : ∀ j, j < C.n → C.dim j ≤ maxDim)
    (hInv : EngineInv C maxDim k acc) :
    EngineInv C maxDim (k + 1) (stepMain C acc k) := by
  obtain ⟨hmk, hco, hlen, hsum, hclm⟩ := hInv
  have hknm : k ∉ acc.1.marked := by
    intro hc
    have := hmk hc
    rw [Finset.mem_range] at this
    omega
  have hcoBk : acc.1.coB k = ∅ := by
    by_contra hkc
    exact hknm ((hco k hkc).2.2 (hco k hkc).1)
  have hBspec : removePivotRows C acc.1 k ⊆ acc.1.marked
      ∧ (removePivotRows C acc.1 k ≠ ∅ →
          acc.1.coB ((removePivotRows C acc.1 k).max.unbot' 0) = ∅) :=
    reduceB_spec acc.1.coB acc.1.marked hco C.n
      ((C.bdry k).filter (fun bx => bx ∈ acc.1.marked))
      (fun x hx => (Finset.mem_filter.mp hx).2)
      (fun x hx => by
        have hxk := hmk ((Finset.mem_filter.mp hx).2)
        rw [Finset.mem_range] at hxk
        omega)
  unfold EngineInv
  rw [stepMain_eq]
  by_cases hB : removePivotRows C acc.1 k = ∅
  · rw [if_pos hB]
    dsimp only
    refine ⟨?_, ?_, hlen, ?_, ?_⟩
    · intro x hx
      rcases Finset.mem_insert.mp hx with rfl | hx
      · exact Finset.mem_range.mpr (by omega)
      · have := hmk hx
        rw [Finset.mem_range] at this ⊢
        omega
    · intro b hb
      obtain ⟨h1, h2, h3⟩ := hco b hb
      exact ⟨h1, h2, fun x hx => Finset.mem_insert_of_mem (h3 hx)⟩
    · rw [Finset.card_insert_of_not_mem hknm]
      omega
    · rw [Finset.range_succ, Finset.filter_insert,
        if_neg (fun hcon => hcon hcoBk), Finset.card_insert_of_not_mem hknm]
      omega
  · rw [if_neg hB]
    obtain ⟨m, hm⟩ := Finset.max_of_nonempty (Finset.nonempty_iff_ne_empty.mpr hB)
    have hbv : (removePivotRows C acc.1 k).max.unbot' 0 = m := by rw [hm]; rfl
    have hmB : m ∈ removePivotRows C acc.1 k := Finset.mem_of_max hm
    have hmM : m ∈ acc.1.marked := hBspec.1 hmB
    have hmk2 : m < k := by
      have := hmk hmM
      rwa [Finset.mem_range] at this
    have hcoBm : acc.1.coB m = ∅ := by
      have h := hBspec.2 hB
      rwa [hbv] at h
    rw [hbv]
    dsimp only
    refine ⟨?_, ?_, ?_, ?_, ?_⟩
    · intro x hx
      have := hmk hx
      rw [Finset.mem_range] at this ⊢
      omega
    · intro b hb
      by_cases hbm : b = m
      · subst hbm
        rw [Function.update_same] at hb ⊢
        exact ⟨hmB, fun x hx => Finset.le_max_of_eq hx hm, hBspec.1⟩
      · rw [Function.update_noteq hbm] at hb ⊢
        exact hco b hb
    · rw [List.length_set]
      exact hlen
    · rw [sum_map_length_set_append acc.2 (C.dim m) _ (by
        rw [hlen]
        exact Nat.lt_succ_of_le (hdim m (by omega)))]
      omega
    · have hfeq : (Finset.range k).filter (fun b =>
            Function.update acc.1.coB m (removePivotRows C acc.1 k) b ≠ ∅)
          = insert m ((Finset.range k).filter (fun b => acc.1.coB b ≠ ∅)) := by
        ext b
        constructor
        · intro hbf
          obtain ⟨hbr, hbne⟩ := Finset.mem_filter.mp hbf
          by_cases hbm : b = m
          · rw [hbm]
            exact Finset.mem_insert_self m _
          · rw [Function.update_noteq hbm] at hbne
            exact Finset.mem_insert_of_mem (Finset.mem_filter.mpr ⟨hbr, hbne⟩)
        · intro hbf
          rcases Finset.mem_insert.mp hbf with rfl | hbf
          · refine Finset.mem_filter.mpr ⟨Finset.mem_range.mpr hmk2, ?_⟩
            rw [Function.update_same]
            exact hB
          · obtain ⟨hbr, hbne⟩ := Finset.mem_filter.mp hbf
            by_cases hbm : b = m
            · rw [hbm] at hbne
              exact absurd hcoBm hbne
            · refine Finset.mem_filter.mpr ⟨hbr, ?_⟩
              rw [Function.update_noteq hbm]
              exact hbne
      rw [Finset.range_succ, Finset.filter_insert,
        if_neg ?hpk, hfeq, Finset.card_insert_of_not_mem ?hmnot]
      · omega
      case hpk =>
        rw [Function.update_noteq (by omega : k ≠ m)]
        exact fun hcon => hcon hcoBk
      case hmnot =>
        intro hmem
        exact (Finset.mem_filter.mp hmem).2 hcoBm

theorem mainFold_inv {α : Type} (C : ChainCplx α) (maxDim : ℕ)
    (hdim : ∀ j, j < C.n → C.dim j ≤ maxDim) :
    ∀ k, k ≤ C.n → EngineInv C maxDim k
      ((List.range k).foldl (stepMain C)
        (⟨∅, fun _ => ∅⟩, List.replicate (maxDim + 1) [])) := by
  intro k
  induction k with
  | zero =>
    intro _
    unfold EngineInv
    refine ⟨?_, ?_, ?_, ?_, ?_⟩
    · intro x hx
      exact absurd hx (Finset.not_mem_empty x)
    · intro b hb
      exact absurd rfl hb
    · exact List.length_replicate _ _
    · simp
    · simp
  | succ k ih =>
    intro hk1
    rw [List.range_succ, List.foldl_append, List.foldl_cons, List.foldl_nil]
    exact stepMain_inv C maxDim k _ (by omega) hdim (ih (by omega))

/-- The final sweep appends exactly one infinite interval per marked chain
with an unclaimed pivot column, and keeps the bucket shape. -/
theorem finalPass_sum {α : Type} (C : ChainCplx α) (st : RState) (maxDim : ℕ)
    (hdim : ∀ j, j < C.n → C.dim j ≤ maxDim) :
    ∀ k, k ≤ C.n → ∀ ivs : List (List (PInterval α)), ivs.length = maxDim + 1 →
      ((((List.range k).foldl (fun acc j =>
          if j ∈ st.marked ∧ st.coB j = ∅ then
            acc.set (C.dim j) (acc.getD (C.dim j) [] ++ [⟨C.level j, ⊤⟩])
          else acc) ivs).map List.length).sum
        = (ivs.map List.length).sum
          + ((Finset.range k).filter (fun j => j ∈ st.marked ∧ st.coB j = ∅)).card)
      ∧ ((List.range k).foldl (fun acc j =>
          if j ∈ st.marked ∧ st.coB j = ∅ then
            acc.set (C.dim j) (acc.getD (C.dim j) [] ++ [⟨C.level j, ⊤⟩])
          else acc) ivs).length = maxDim + 1 := by
  intro k
  induction k with
  | zero =>
    intro _ ivs hivs
    constructor
    · simp
    · exact hivs
  | succ k ih =>
    intro hk ivs hivs
    rw [List.range_succ, List.foldl_append, List.foldl_cons, List.foldl_nil]
    obtain ⟨ihsum, ihlen⟩ := ih (by omega) ivs hivs
    by_cases hcond : k ∈ st.marked ∧ st.coB k = ∅
    · rw [if_pos hcond]
      constructor
      · rw [sum_map_length_set_append _ (C.dim k) _ (by
          rw [ihlen]
          exact Nat.lt_succ_of_le (hdim k (by omega)))]
        rw [ihsum, Finset.range_succ, Finset.filter_insert, if_pos hcond,
          Finset.card_insert_of_not_mem (by
            intro hmem
            have := Finset.mem_range.mp (Finset.mem_filter.mp hmem).1
            omega)]
        omega
      · rw [List.length_set]
        exact ihlen
    · rw [if_neg hcond]
      constructor
      · rw [ihsum, Finset.range_succ, Finset.filter_insert, if_neg hcond]
      · exact ihlen

/-- C4: on a non-empty complex in non-decreasing filtration order, after
the reduction pass the intervals emitted across all dimensions (finite plus
infinite) number exactly the marked cycle representatives; the finite
intervals number exactly the non-representatives (one each); and the
claimed pivot columns are as many distinct marked representatives as there
are non-representatives, so each non-representative's pivot is a marked
representative claimed by no other. -/
theorem c4_interval_conservation {α : Type} [LinearOrder α] (C : ChainCplx α) (maxDim : ℕ)
    (hmax : ((List.range C.n).map C.dim).max? = some maxDim)
    (hmono : ∀ i j, i ≤ j → j < C.n → C.level i ≤ C.level j) :
    ∃ st buckets, mainFold C maxDim = (st, buckets)
      ∧ computeIntervals C = some (finalPass C st buckets)
      ∧ ((finalPass C st buckets).map List.length).sum = st.marked.card
      ∧ (buckets.map List.length).sum + st.marked.card = C.n
      ∧ ((Finset.range C.n).filter (fun b => st.coB b ≠ ∅)).card + st.marked.card = C.n
      ∧ (∀ b, st.coB b ≠ ∅ → b ∈ st.marked) := by
  have hn : 0 < C.n := by
    rcases Nat.eq_zero_or_pos C.n with h0 | h
    · rw [h0] at hmax
      exact absurd hmax (by simp)
    · exact h
  have hdim : ∀ j, j < C.n → C.dim j ≤ maxDim := by
    intro j hj
    rw [List.max?_eq_some_iff] at hmax
    · refine hmax.2 (C.dim j) ?_
      rw [List.mem_map]
      exact ⟨j, by rw [List.mem_range]; omega, rfl⟩
    all_goals simp [Nat.le_total, Nat.max_le]
  have hInv : EngineInv C maxDim C.n (mainFold C maxDim) :=
    mainFold_inv C maxDim hdim C.n le_rfl
  obtain ⟨hmk, hco, hlen, hsum, hclm⟩ := hInv
  have hfp : (((finalPass C (mainFold C maxDim).1 (mainFold C maxDim).2).map
        List.length).sum
      = ((mainFold C maxDim).2.map List.length).sum
        + ((Finset.range C.n).filter (fun j => j ∈ (mainFold C maxDim).1.marked
            ∧ (mainFold C maxDim).1.coB j = ∅)).card)
      ∧ (finalPass C (mainFold C maxDim).1 (mainFold C maxDim).2).length = maxDim + 1 :=
    finalPass_sum C (mainFold C maxDim).1 maxDim hdim C.n le_rfl
      (mainFold C maxDim).2 hlen
  have hclsub : (Finset.range C.n).filter (fun b => (mainFold C maxDim).1.coB b ≠ ∅)
      ⊆ (mainFold C maxDim).1.marked := by
    intro b hbm
    have hbc := (Finset.mem_filter.mp hbm).2
    exact (hco b hbc).2.2 (hco b hbc).1
  have hset : (Finset.range C.n).filter (fun j => j ∈ (mainFold C maxDim).1.marked
        ∧ (mainFold C maxDim).1.coB j = ∅)
      = (mainFold C maxDim).1.marked
        \ (Finset.range C.n).filter (fun b => (mainFold C maxDim).1.coB b ≠ ∅) := by
    ext j
    constructor
    · intro hj
      obtain ⟨hjr, hjm, hjc⟩ := Finset.mem_filter.mp hj
      rw [Finset.mem_sdiff]
      exact ⟨hjm, fun hcon => (Finset.mem_filter.mp hcon).2 hjc⟩
    · intro hj
      obtain ⟨hjm, hns⟩ := Finset.mem_sdiff.mp hj
      have hjr : j ∈ Finset.range C.n := hmk hjm
      refine Finset.mem_filter.mpr ⟨hjr, hjm, ?_⟩
      by_contra hjc
      exact hns (Finset.mem_filter.mpr ⟨hjr, hjc⟩)
  refine ⟨(mainFold C maxDim).1, (mainFold C maxDim).2, rfl, ?_, ?_, hsum, hclm, ?_⟩
  · unfold computeIntervals
    rw [hmax]
  · rw [hfp.1, hset, Finset.card_sdiff hclsub]
    have hle := Finset.card_le_card hclsub
    omega
  · intro b hb
    exact (hco b hb).2.2 (hco b hb).1

/-- Witness for C4 at a one-chain complex (a single vertex at level 0): the
dimension maximum exists, the levels are trivially monotone, and the
conservation conclusion holds. -/
theorem c4_interval_conservation_witness :
    (((List.range (⟨1, fun _ => 0, fun _ => (0 : ℚ), fun _ => ∅⟩ : ChainCplx ℚ).n).map
        (⟨1, fun _ => 0, fun _ => (0 : ℚ), fun _ => ∅⟩ : ChainCplx ℚ).dim).max? = some 0)
    ∧ (∃ st buckets,
        mainFold (⟨1, fun _ => 0, fun _ => (0 : ℚ), fun _ => ∅⟩ : ChainCplx ℚ) 0
          = (st, buckets)
        ∧ computeIntervals (⟨1, fun _ => 0, fun _ => (0 : ℚ), fun _ => ∅⟩ : ChainCplx ℚ)
            = some (finalPass (⟨1, fun _ => 0, fun _ => (0 : ℚ), fun _ => ∅⟩ : ChainCplx ℚ)
                st buckets)
        ∧ ((finalPass (⟨1, fun _ => 0, fun _ => (0 : ℚ), fun _ => ∅⟩ : ChainCplx ℚ)
              st buckets).map List.length).sum = st.marked.card
        ∧ (buckets.map List.length).sum + st.marked.card
            = (⟨1, fun _ => 0, fun _ => (0 : ℚ), fun _ => ∅⟩ : ChainCplx ℚ).n
        ∧ ((Finset.range (⟨1, fun _ => 0, fun _ => (0 : ℚ), fun _ => ∅⟩ : ChainCplx ℚ).n).filter
              (fun b => st.coB b ≠ ∅)).card + st.marked.card
            = (⟨1, fun _ => 0, fun _ => (0 : ℚ), fun _ => ∅⟩ : ChainCplx ℚ).n
        ∧ (∀ b, st.coB b ≠ ∅ → b ∈ st.marked)) :=
  ⟨rfl, c4_interval_conservation (⟨1, fun _ => 0, fun _ => (0 : ℚ), fun _ => ∅⟩ : ChainCplx ℚ)
    0 rfl (fun i j _ _ => le_refl 0)⟩


end Persist
